import Mathlib

/-!
# Verification of the review-agent-action core against its specification

This file gives a shallow embedding, in Lean 4, of the algorithmic core of the
`review-agent-action` repository (scripts/post-review.py, scripts/llm-review.py)
and proves the specification's claims about it.

Python strings are modelled as `List Char`; Python `set[int]` as `Finset ℤ`;
Python dicts keyed by strings as insertion-ordered association lists
(`List (Str × _)`), with the dict operations used by the source embedded as
explicit functions.  Machine integers are modelled as `ℤ`/`ℕ` (Python ints are
unbounded, so no overflow modelling is needed).
-/

namespace ReviewAgent

/-- Python `str` modelled as its list of characters. -/
abbrev Str := List Char

/-- Substring test: Python's `pat in s` for strings (scan every tail). -/
def isSubstr (pat : Str) : Str → Bool
  | [] => pat.isPrefixOf []
  | c :: rest => pat.isPrefixOf (c :: rest) || isSubstr pat rest

/-!
## llm-review.py : `compute_max_tool_rounds`  (lines 534–543)

    base = 10
    per_file = 2
    dynamic = base + int(num_changed_files * per_file)
    return min(max(dynamic, base), MAX_TOOL_ROUNDS_CEILING)
-/

/-- `MAX_TOOL_ROUNDS_CEILING = 30` (llm-review.py line 39). -/
def MAX_TOOL_ROUNDS_CEILING : ℕ := 30

/-- Embedding of `compute_max_tool_rounds` (llm-review.py lines 534–543). -/
def compute_max_tool_rounds (num_changed_files : ℕ) : ℕ :=
  let base := 10
  let per_file := 2
  let dynamic := base + num_changed_files * per_file
  min (max dynamic base) MAX_TOOL_ROUNDS_CEILING

/-!
## post-review.py : dict-of-sets helpers

The diff parsers build `dict[str, set[int]]`.  We model such a dict as an
insertion-ordered association list and embed exactly the operations the source
uses: `d[k] = set()`, `d.setdefault(k, set())`, `d.setdefault(k, set()).add(n)`,
and `d.get(k, set())`.
-/

/-- `d[k] = set()` — replace the binding of `k` in place, else append it. -/
def dictSetEmpty : List (Str × Finset ℤ) → Str → List (Str × Finset ℤ)
  | [], k => [(k, ∅)]
  | (k', v) :: rest, k =>
      if k' = k then (k, ∅) :: rest else (k', v) :: dictSetEmpty rest k

/-- `d.setdefault(k, set())` — keep an existing binding, else append `(k, ∅)`. -/
def dictSetdefaultEmpty : List (Str × Finset ℤ) → Str → List (Str × Finset ℤ)
  | [], k => [(k, ∅)]
  | (k', v) :: rest, k =>
      if k' = k then (k', v) :: rest else (k', v) :: dictSetdefaultEmpty rest k

/-- `d.setdefault(k, set()).add(n)` — insert `n` into `k`'s set, creating it if absent. -/
def dictAddLine : List (Str × Finset ℤ) → Str → ℤ → List (Str × Finset ℤ)
  | [], k, n => [(k, {n})]
  | (k', v) :: rest, k, n =>
      if k' = k then (k', insert n v) :: rest else (k', v) :: dictAddLine rest k n

/-- `d.get(k, set())`. -/
def linesFor (d : List (Str × Finset ℤ)) (k : Str) : Finset ℤ :=
  match d.find? (fun kv => kv.1 = k) with
  | some kv => kv.2
  | none => ∅

/-!
## post-review.py : `is_comment_addressed`  (lines 234–255)

    COMMENT_PROXIMITY_THRESHOLD = 5
    if not line or line <= 0: return False
    changed_lines = changed_ranges.get(file_path, set())
    if not changed_lines: return False
    for offset in range(COMMENT_PROXIMITY_THRESHOLD + 1):
        if (line + offset) in changed_lines or (line - offset) in changed_lines:
            return True
    return False
-/

def COMMENT_PROXIMITY_THRESHOLD : ℕ := 5

/-- Embedding of `is_comment_addressed` (post-review.py lines 237–255).
For a Python `int`, `not line or line <= 0` is equivalent to `line ≤ 0`;
the early-return loop over `range(6)` is the `List.any`. -/
def is_comment_addressed (file_path : Str) (line : ℤ)
    (changed_ranges : List (Str × Finset ℤ)) : Bool :=
  if line ≤ 0 then false
  else
    let changed_lines := linesFor changed_ranges file_path
    if changed_lines = ∅ then false
    else (List.range (COMMENT_PROXIMITY_THRESHOLD + 1)).any fun off =>
      decide ((line + (off : ℤ)) ∈ changed_lines) ||
      decide ((line - (off : ℤ)) ∈ changed_lines)

/-!
## post-review.py : `find_closest_commentable_line`  (lines 258–271)

    if not commentable_lines: return None
    if target_line in commentable_lines: return target_line
    for offset in range(1, 6):
        if (target_line + offset) in commentable_lines: return target_line + offset
        if (target_line - offset) in commentable_lines: return target_line - offset
    return None
-/

/-- The search loop of `find_closest_commentable_line`: try offsets
`off, off+1, …` (`fuel` many of them), above before below. -/
def closestSearch (commentable : Finset ℤ) (target : ℤ) : ℕ → ℕ → Option ℤ
  | _, 0 => none
  | off, fuel + 1 =>
    if (target + (off : ℤ)) ∈ commentable then some (target + (off : ℤ))
    else if (target - (off : ℤ)) ∈ commentable then some (target - (off : ℤ))
    else closestSearch commentable target (off + 1) fuel

/-- Embedding of `find_closest_commentable_line` (post-review.py lines 258–271);
the Python loop `for offset in range(1, 6)` is `closestSearch … 1 5`. -/
def find_closest_commentable_line (commentable_lines : Finset ℤ) (target_line : ℤ) :
    Option ℤ :=
  if commentable_lines = ∅ then none
  else if target_line ∈ commentable_lines then some target_line
  else closestSearch commentable_lines target_line 1 5

/-!
## Lemmas about the closest-commentable-line search
-/

lemma closestSearch_some (S : Finset ℤ) (t : ℤ) :
    ∀ fuel off r, closestSearch S t off fuel = some r →
      r ∈ S ∧ ∃ k : ℕ, off ≤ k ∧ k < off + fuel ∧ (r = t + k ∨ r = t - k) := by
  intro fuel
  induction fuel with
  | zero => intro off r h; simp [closestSearch] at h
  | succ n ih =>
    intro off r h
    rw [closestSearch] at h
    by_cases h1 : (t + (off : ℤ)) ∈ S
    · rw [if_pos h1] at h
      cases h
      exact ⟨h1, off, le_refl _, by omega, Or.inl rfl⟩
    · rw [if_neg h1] at h
      by_cases h2 : (t - (off : ℤ)) ∈ S
      · rw [if_pos h2] at h
        cases h
        exact ⟨h2, off, le_refl _, by omega, Or.inr rfl⟩
      · rw [if_neg h2] at h
        obtain ⟨hr, k, hk1, hk2, hk3⟩ := ih (off + 1) r h
        exact ⟨hr, k, by omega, by omega, hk3⟩

lemma closestSearch_none (S : Finset ℤ) (t : ℤ) :
    ∀ fuel off, closestSearch S t off fuel = none ↔
      ∀ k : ℕ, off ≤ k → k < off + fuel → (t + k ∉ S ∧ t - k ∉ S) := by
  intro fuel
  induction fuel with
  | zero => intro off; simp [closestSearch]; omega
  | succ n ih =>
    intro off
    rw [closestSearch]
    by_cases h1 : (t + (off : ℤ)) ∈ S
    · rw [if_pos h1]
      refine iff_of_false (by simp) ?_
      intro h
      exact (h off (le_refl _) (by omega)).1 h1
    · rw [if_neg h1]
      by_cases h2 : (t - (off : ℤ)) ∈ S
      · rw [if_pos h2]
        refine iff_of_false (by simp) ?_
        intro h
        exact (h off (le_refl _) (by omega)).2 h2
      · rw [if_neg h2, ih]
        constructor
        · intro h k hk1 hk2
          rcases Nat.eq_or_lt_of_le hk1 with heq | hlt
          · subst heq; exact ⟨h1, h2⟩
          · exact h k hlt (by omega)
        · intro h k hk1 hk2
          exact h k (by omega) (by omega)

lemma closestSearch_minimal (S : Finset ℤ) (t : ℤ) :
    ∀ fuel off r, (∀ j : ℕ, j < off → t + j ∉ S ∧ t - j ∉ S) →
      closestSearch S t off fuel = some r →
      ∀ m ∈ S, |r - t| ≤ |m - t| := by
  intro fuel
  induction fuel with
  | zero => intro off r _ h; simp [closestSearch] at h
  | succ n ih =>
    intro off r hpre h m hm
    rw [closestSearch] at h
    have key : ∀ x : ℤ, x ∈ S → (off : ℤ) ≤ |x - t| := by
      intro x hx
      by_contra hlt
      push_neg at hlt
      have hj : (x - t).natAbs < off := by
        rw [Int.abs_eq_natAbs] at hlt; omega
      rcases Int.natAbs_eq (x - t) with he | he
      · exact (hpre (x - t).natAbs hj).1 (by rw [show t + ((x - t).natAbs : ℤ) = x by omega]; exact hx)
      · exact (hpre (x - t).natAbs hj).2 (by rw [show t - ((x - t).natAbs : ℤ) = x by omega]; exact hx)
    by_cases h1 : (t + (off : ℤ)) ∈ S
    · rw [if_pos h1] at h
      cases h
      calc |t + (off : ℤ) - t| = (off : ℤ) := by rw [show t + (off : ℤ) - t = (off : ℤ) by ring]; exact abs_of_nonneg (by positivity)
        _ ≤ |m - t| := key m hm
    · rw [if_neg h1] at h
      by_cases h2 : (t - (off : ℤ)) ∈ S
      · rw [if_pos h2] at h
        cases h
        calc |t - (off : ℤ) - t| = (off : ℤ) := by rw [show t - (off : ℤ) - t = -(off : ℤ) by ring]; rw [abs_neg]; exact abs_of_nonneg (by positivity)
          _ ≤ |m - t| := key m hm
      · rw [if_neg h2] at h
        refine ih (off + 1) r ?_ h m hm
        intro j hj
        rcases Nat.lt_succ_iff_lt_or_eq.mp hj with hlt | heq
        · exact hpre j hlt
        · subst heq; exact ⟨h1, h2⟩

/-- **C5.** For every set of commentable lines and every target line,
`find_closest_commentable_line` returns the target itself when the target is in
the set; otherwise it returns some member of the set whose absolute distance
from the target is at most 5 and minimal among all members; it returns `none`
exactly when no member lies within distance 5 (in particular when the set is
empty). -/
theorem find_closest_commentable_line_spec (S : Finset ℤ) (t : ℤ) :
    (t ∈ S → find_closest_commentable_line S t = some t)
    ∧ (∀ r, find_closest_commentable_line S t = some r →
        r ∈ S ∧ |r - t| ≤ 5 ∧ ∀ m ∈ S, |r - t| ≤ |m - t|)
    ∧ (find_closest_commentable_line S t = none ↔ ∀ m ∈ S, 5 < |m - t|) := by
  refine ⟨?_, ?_, ?_⟩
  · intro ht
    have hne : S ≠ ∅ := by intro he; rw [he] at ht; exact absurd ht (Finset.not_mem_empty t)
    rw [find_closest_commentable_line, if_neg hne, if_pos ht]
  · intro r hr
    rw [find_closest_commentable_line] at hr
    by_cases hne : S = ∅
    · rw [if_pos hne] at hr; cases hr
    · rw [if_neg hne] at hr
      by_cases ht : t ∈ S
      · rw [if_pos ht] at hr
        cases hr
        refine ⟨ht, by simp, ?_⟩
        intro m _
        simp only [sub_self, abs_zero]
        exact abs_nonneg _
      · rw [if_neg ht] at hr
        obtain ⟨hrS, k, hk1, hk2, hk3⟩ := closestSearch_some S t 5 1 r hr
        have habs : |r - t| = (k : ℤ) := by
          rcases hk3 with h | h <;> subst h
          · rw [show t + (k : ℤ) - t = (k : ℤ) by ring]; exact abs_of_nonneg (by positivity)
          · rw [show t - (k : ℤ) - t = -(k : ℤ) by ring, abs_neg]; exact abs_of_nonneg (by positivity)
        refine ⟨hrS, by omega, ?_⟩
        refine closestSearch_minimal S t 5 1 r ?_ hr
        intro j hj
        have : j = 0 := by omega
        subst this
        simp only [Nat.cast_zero, add_zero, sub_zero]
        exact ⟨ht, ht⟩
  · rw [find_closest_commentable_line]
    by_cases hne : S = ∅
    · rw [if_pos hne]
      subst hne
      simp
    · rw [if_neg hne]
      by_cases ht : t ∈ S
      · rw [if_pos ht]
        refine iff_of_false (by simp) ?_
        intro h
        exact absurd (h t ht) (by simp)
      · rw [if_neg ht, closestSearch_none]
        constructor
        · intro h m hm
          by_contra hle
          push_neg at hle
          have hk : (m - t).natAbs ≤ 5 := by rw [Int.abs_eq_natAbs] at hle; omega
          by_cases h0 : (m - t).natAbs = 0
          · have : m = t := by omega
            subst this; exact ht hm
          · rcases Int.natAbs_eq (m - t) with he | he
            · exact (h (m - t).natAbs (by omega) (by omega)).1
                (by rw [show t + ((m - t).natAbs : ℤ) = m by omega]; exact hm)
            · exact (h (m - t).natAbs (by omega) (by omega)).2
                (by rw [show t - ((m - t).natAbs : ℤ) = m by omega]; exact hm)
        · intro h k hk1 hk2
          constructor
          · intro hmem
            have := h _ hmem
            rw [show t + (k : ℤ) - t = (k : ℤ) by ring, abs_of_nonneg (by positivity : (0:ℤ) ≤ (k:ℤ))] at this
            omega
          · intro hmem
            have := h _ hmem
            rw [show t - (k : ℤ) - t = -(k : ℤ) by ring, abs_neg, abs_of_nonneg (by positivity : (0:ℤ) ≤ (k:ℤ))] at this
            omega

/-- Witness for C5: concrete instantiations of the hypotheses of
`find_closest_commentable_line_spec`. -/
theorem find_closest_commentable_line_spec_witness :
    find_closest_commentable_line {10, 11, 12} 11 = some 11
    ∧ find_closest_commentable_line {100} 10 = none :=
  ⟨(find_closest_commentable_line_spec {10, 11, 12} 11).1 (by decide),
   (find_closest_commentable_line_spec {100} 10).2.2.mpr (by decide)⟩

/-!
## C3 : the round budget
-/

/-- **C3.** `compute_max_tool_rounds n = min (max (10 + 2·n) 10) 30`, with the
spec's sample points `f 0 = 10`, `f 5 = 20`, `f 100 = 30`, and monotonicity. -/
theorem compute_max_tool_rounds_spec :
    (∀ n : ℕ, compute_max_tool_rounds n = min (max (10 + 2 * n) 10) 30)
    ∧ compute_max_tool_rounds 0 = 10
    ∧ compute_max_tool_rounds 5 = 20
    ∧ compute_max_tool_rounds 100 = 30
    ∧ ∀ m n : ℕ, m ≤ n → compute_max_tool_rounds m ≤ compute_max_tool_rounds n := by
  refine ⟨?_, by decide, by decide, by decide, ?_⟩
  · intro n
    simp only [compute_max_tool_rounds, MAX_TOOL_ROUNDS_CEILING]
    omega
  · intro m n h
    simp only [compute_max_tool_rounds, MAX_TOOL_ROUNDS_CEILING]
    omega

/-- Witness for C3: monotonicity applied at a concrete pair. -/
theorem compute_max_tool_rounds_spec_witness :
    3 ≤ 7 ∧ compute_max_tool_rounds 3 ≤ compute_max_tool_rounds 7 :=
  ⟨by decide, compute_max_tool_rounds_spec.2.2.2.2 3 7 (by decide)⟩

/-!
## C7 : `is_comment_addressed`

The claim as stated quantifies over *every* line number.  The code (and its own
test `test_no_line_number_not_addressed`) returns `False` whenever the stored
line is `0` (or negative), even when a changed line lies within the window, so
the claim fails at `line = 0`; restricted to positive line numbers it holds.
-/

/-- **C7, counterexample.** At `line = 0` with changed set `{1}` in the same
file, a changed line lies within absolute distance 5 (`|1 - 0| = 1 ≤ 5`), yet
`is_comment_addressed` returns `false` — refuting the claim's "if and only if"
at this input. -/
theorem is_comment_addressed_counterexample :
    is_comment_addressed "a.py".toList 0 [("a.py".toList, ({1} : Finset ℤ))] = false
    ∧ (1 : ℤ) ∈ linesFor [("a.py".toList, ({1} : Finset ℤ))] "a.py".toList
    ∧ |(1 : ℤ) - 0| ≤ 5 := by
  refine ⟨by decide, by decide, by decide⟩

/-- **C7, amended.** For every file path, *positive* line number, and
changed-line map, `is_comment_addressed` returns `true` iff some line in that
file's changed-line set lies within absolute distance 5 of the comment's line
(symmetric in direction and strictly bounded by the window of 5). -/
theorem is_comment_addressed_spec (file_path : Str) (line : ℤ)
    (changed_ranges : List (Str × Finset ℤ)) (hpos : 0 < line) :
    is_comment_addressed file_path line changed_ranges = true ↔
      ∃ k ∈ linesFor changed_ranges file_path, |k - line| ≤ 5 := by
  rw [is_comment_addressed, if_neg (by omega : ¬ line ≤ 0)]
  by_cases hc : linesFor changed_ranges file_path = ∅
  · rw [if_pos hc, hc]
    simp
  · rw [if_neg hc]
    rw [List.any_eq_true]
    constructor
    · rintro ⟨off, hoff, hp⟩
      rw [List.mem_range, COMMENT_PROXIMITY_THRESHOLD] at hoff
      rcases Bool.or_eq_true_iff.mp hp with hmem | hmem
      · exact ⟨line + (off : ℤ), of_decide_eq_true hmem, by
          rw [show line + (off : ℤ) - line = (off : ℤ) by ring,
            abs_of_nonneg (by positivity : (0:ℤ) ≤ (off:ℤ))]
          omega⟩
      · exact ⟨line - (off : ℤ), of_decide_eq_true hmem, by
          rw [show line - (off : ℤ) - line = -(off : ℤ) by ring, abs_neg,
            abs_of_nonneg (by positivity : (0:ℤ) ≤ (off:ℤ))]
          omega⟩
    · rintro ⟨k, hk, hd⟩
      refine ⟨(k - line).natAbs, ?_, ?_⟩
      · rw [List.mem_range, COMMENT_PROXIMITY_THRESHOLD]
        rw [Int.abs_eq_natAbs] at hd
        omega
      · rcases Int.natAbs_eq (k - line) with he | he
        · apply Bool.or_eq_true_iff.mpr
          exact Or.inl (decide_eq_true (by rw [show line + ((k - line).natAbs : ℤ) = k by omega]; exact hk))
        · apply Bool.or_eq_true_iff.mpr
          exact Or.inr (decide_eq_true (by rw [show line - ((k - line).natAbs : ℤ) = k by omega]; exact hk))

/-- Witness for C7 (amended): the theorem applied at a concrete positive line. -/
theorem is_comment_addressed_spec_witness :
    is_comment_addressed "src/a.py".toList 77 [("src/a.py".toList, ({80} : Finset ℤ))] = true :=
  (is_comment_addressed_spec "src/a.py".toList 77
    [("src/a.py".toList, ({80} : Finset ℤ))] (by decide)).mpr (by decide)

/-!
## llm-review.py : `check_file_coverage`  (lines 546–572)

Path helpers model CPython's `pathlib.PurePath.name` and `.suffix` for the
POSIX file paths the scripts handle: `name` is the last nonempty component of
the `/`-split, and `suffix` is `name[i:]` for `i = name.rfind('.')` when
`0 < i < len(name) - 1`, else empty.
-/

/-- `Path(f).name` (last nonempty `/`-separated component). -/
def path_name (f : Str) : Str :=
  ((f.splitOn '/').filter (fun comp => !comp.isEmpty)).getLastD []

/-- `s.rfind(c)`: index of the last occurrence of `c`, if any. -/
def rfindChar (c : Char) : Str → Option ℕ
  | [] => none
  | a :: as =>
    match rfindChar c as with
    | some i => some (i + 1)
    | none => if a = c then some 0 else none

/-- `Path(f).suffix`. -/
def path_suffix (f : Str) : Str :=
  let name := path_name f
  match rfindChar '.' name with
  | none => []
  | some i => if 0 < i ∧ i + 1 < name.length then name.drop i else []

/-- `DOC_EXTENSIONS` (llm-review.py line 40). -/
def DOC_EXTENSIONS : List Str :=
  [".md".toList, ".mdc".toList, ".txt".toList, ".rst".toList, ".mdx".toList]

/-- `LOCKFILE_NAMES` (llm-review.py line 42). -/
def LOCKFILE_NAMES : List Str :=
  ["pnpm-lock.yaml".toList, "package-lock.json".toList, "yarn.lock".toList,
   "poetry.lock".toList, "Pipfile.lock".toList]

/-- One finding produced by the agent (`{"file", "line", "severity", "title",
"body"}` per the output schema). -/
structure Suggestion where
  file : Str
  line : ℤ
  severity : Str
  title : Str
  body : Str
deriving DecidableEq

/-- Embedding of `check_file_coverage` (llm-review.py lines 546–572).
`files_read` is the set of `read_file` arguments; the `result` dict is passed
as its suggestion list. -/
def check_file_coverage (changed_files : List Str) (files_read : List Str)
    (suggestions : List Suggestion) : List Str :=
  let files_in_suggestions := suggestions.map (fun s => s.file)
  let reviewed := files_read ++ files_in_suggestions
  changed_files.filter fun f =>
    decide (f ∉ reviewed)
    && decide (path_name f ∉ LOCKFILE_NAMES)
    && decide (path_suffix f ∉ DOC_EXTENSIONS)

/-- **C4.** A changed file is returned as missed exactly when it was not an
argument of a `read_file` call, is not cited as the `file` of any suggestion,
its basename is not a known lockfile name, and its extension is not a
documentation extension; together with the spec's example
`changed = [a.py, b.py, c.py]`, `read = {a.py}`, no citations ⇒
`missed = [b.py, c.py]`. -/
theorem check_file_coverage_spec :
    (∀ (changed_files files_read : List Str) (suggestions : List Suggestion) (f : Str),
      f ∈ check_file_coverage changed_files files_read suggestions ↔
        f ∈ changed_files ∧ f ∉ files_read ∧ (∀ s ∈ suggestions, s.file ≠ f)
          ∧ path_name f ∉ LOCKFILE_NAMES ∧ path_suffix f ∉ DOC_EXTENSIONS)
    ∧ check_file_coverage ["a.py".toList, "b.py".toList, "c.py".toList] ["a.py".toList] []
        = ["b.py".toList, "c.py".toList] := by
  constructor
  · intro changed_files files_read suggestions f
    simp only [check_file_coverage, List.mem_filter, Bool.and_eq_true,
      decide_eq_true_eq, List.mem_append, List.mem_map, not_or, not_exists]
    tauto
  · decide

/-!
## post-review.py : the risk engine  (lines 58–169)
-/

/-- `ℕ` rendered in decimal, for the f-string reason messages. -/
def natToStr (n : ℕ) : Str := (toString n).toList

/-- Python string `<=` (lexicographic by code point), for `sorted`. -/
def strLe : Str → Str → Bool
  | [], _ => true
  | _ :: _, [] => false
  | a :: as, b :: bs => if a = b then strLe as bs else decide (a < b)

/-- Insertion step of `sorted`. -/
def insertStr (x : Str) : List Str → List Str
  | [] => [x]
  | y :: ys => if strLe x y then x :: y :: ys else y :: insertStr x ys

/-- Python `sorted` on a collection of strings. -/
def sortStrs : List Str → List Str
  | [] => []
  | x :: xs => insertStr x (sortStrs xs)

/-- `", ".join(xs)`. -/
def joinWith (sep : Str) (xs : List Str) : Str := sep.intercalate xs

/-- The `risk.thresholds` configuration section (after `.get` defaults). -/
structure Thresholds where
  max_code_files : ℕ
  max_code_lines : ℕ
  cross_cutting_domains : ℕ

/-- The configuration mapping, restricted to the fields the risk engine reads
(each field holds the value that the corresponding `config.get(...)` chain
yields, defaults already applied). -/
structure Config where
  auto_approve_enabled : Bool
  structural_paths : List Str
  security_paths : List Str
  security_dep_files : List Str
  thresholds : Thresholds
  domain_paths : List (Str × Str)
  infrastructure_patterns : List Str
  doc_extensions : List Str

/-- Diff statistics as produced by `compute_diff_stats`. -/
structure DiffStats where
  lines_added : ℕ
  lines_removed : ℕ
  code_lines_added : ℕ
  code_lines_removed : ℕ

/-- Embedding of `has_structural_risk` (post-review.py lines 58–65): the first
configured structural path fragment contained in some changed file wins. -/
def has_structural_risk (changed_files : List Str) (config : Config) :
    Bool × Option Str :=
  match config.structural_paths.find? (fun rp => changed_files.any (fun f => isSubstr rp f)) with
  | some rp =>
      (true, some ("Structural risk — file matching '".toList ++ rp ++ "' changed".toList))
  | none => (false, none)

/-- Embedding of `has_security_risk` (post-review.py lines 68–85). -/
def has_security_risk (changed_files : List Str) (_diff_content : Str)
    (config : Config) : Bool × Option Str :=
  if changed_files.any (fun f => config.security_paths.any (fun p => isSubstr p f)) then
    (true, some "Security-sensitive file changed".toList)
  else if changed_files.any (fun f =>
      (List.isSuffixOf ".env".toList f || List.isSuffixOf ".env.example".toList f
        || List.isSuffixOf ".key".toList f) || isSubstr "credentials".toList f) then
    (true, some "Environment/secrets file changed".toList)
  else if changed_files.any (fun f => config.security_dep_files.any
      (fun d => List.isSuffixOf d f)) then
    (true, some "Dependency change — supply chain risk".toList)
  else (false, none)

/-- Embedding of `has_complexity_risk` (post-review.py lines 88–126).
The Python `set` of touched domains is modelled as the deduplicated list of
matches; only its size and its sorted rendering are used. -/
def has_complexity_risk (changed_files : List Str) (diff_stats : DiffStats)
    (_suggestions : List Suggestion) (config : Config) : Bool × Option Str :=
  let code_files := changed_files.filter
    (fun f => !(config.doc_extensions.any (fun ext => List.isSuffixOf ext f)))
  let code_file_count := code_files.length
  if code_file_count > config.thresholds.max_code_files then
    (true, some ("Large PR (".toList ++ natToStr code_file_count
      ++ " code files) — suggest decomposition".toList))
  else
    let code_lines0 := diff_stats.code_lines_added + diff_stats.code_lines_removed
    let code_lines := if code_lines0 = 0
      then diff_stats.lines_added + diff_stats.lines_removed else code_lines0
    if code_lines > config.thresholds.max_code_lines then
      (true, some ("Large diff (".toList ++ natToStr code_lines
        ++ " code lines) — suggest decomposition".toList))
    else
      let domains_touched := ((changed_files.map (fun f =>
        (config.domain_paths.filter (fun pd => isSubstr pd.1 f)).map
          (fun pd => pd.2))).flatten).dedup
      if config.domain_paths ≠ [] ∧
          config.thresholds.cross_cutting_domains ≤ domains_touched.length then
        (true, some ("Cross-cutting change (".toList
          ++ joinWith ", ".toList (sortStrs domains_touched)
          ++ ") — needs architectural review".toList))
      else if changed_files.any (fun f =>
          config.infrastructure_patterns.any (fun p => isSubstr p f)) then
        (true, some "Infrastructure change — affects deployment".toList)
      else (false, none)

/-- Embedding of `needs_human_review` (post-review.py lines 129–142): run the
three checks in order and accumulate the reasons of those that trip. -/
def needs_human_review (changed_files : List Str) (diff_stats : DiffStats)
    (diff_content : Str) (suggestions : List Suggestion) (config : Config) :
    Bool × List Str :=
  let checks := [has_structural_risk changed_files config,
                 has_security_risk changed_files diff_content config,
                 has_complexity_risk changed_files diff_stats suggestions config]
  let reasons := checks.filterMap (fun c => if c.1 then c.2 else none)
  (decide (0 < reasons.length), reasons)

/-- Embedding of `determine_review_event` (post-review.py lines 145–169). -/
def determine_review_event (suggestions : List Suggestion) (changed_files : List Str)
    (diff_stats : DiffStats) (diff_content : Str) (config : Config) :
    Str × List Str :=
  let critical := suggestions.filter (fun s => decide (s.severity = "critical".toList))
  if critical ≠ [] then
    ("REQUEST_CHANGES".toList, critical.map (fun s => "Critical: ".toList ++ s.title))
  else if !config.auto_approve_enabled then
    ("COMMENT".toList, ["Auto-approval disabled".toList])
  else
    let hn := needs_human_review changed_files diff_stats diff_content suggestions config
    if hn.1 then ("COMMENT".toList, hn.2)
    else ("APPROVE".toList, [])

/-- **C2.** `determine_review_event` decides in strict priority order:
any critical finding ⇒ `REQUEST_CHANGES` with one `Critical: <title>` reason
per critical finding; otherwise auto-approval disabled ⇒ `COMMENT` with the
single disabled-auto-approval reason; otherwise any risk check tripping ⇒
`COMMENT` with the accumulated reasons; otherwise `APPROVE` with no reasons. -/
theorem determine_review_event_spec (suggestions : List Suggestion)
    (changed_files : List Str) (diff_stats : DiffStats) (diff_content : Str)
    (config : Config) :
    ((∃ s ∈ suggestions, s.severity = "critical".toList) →
      determine_review_event suggestions changed_files diff_stats diff_content config =
        ("REQUEST_CHANGES".toList,
          (suggestions.filter (fun s => decide (s.severity = "critical".toList))).map
            (fun s => "Critical: ".toList ++ s.title)))
    ∧ ((¬ ∃ s ∈ suggestions, s.severity = "critical".toList) →
        config.auto_approve_enabled = false →
      determine_review_event suggestions changed_files diff_stats diff_content config =
        ("COMMENT".toList, ["Auto-approval disabled".toList]))
    ∧ ((¬ ∃ s ∈ suggestions, s.severity = "critical".toList) →
        config.auto_approve_enabled = true →
        (needs_human_review changed_files diff_stats diff_content suggestions config).1 = true →
      determine_review_event suggestions changed_files diff_stats diff_content config =
        ("COMMENT".toList,
          (needs_human_review changed_files diff_stats diff_content suggestions config).2))
    ∧ ((¬ ∃ s ∈ suggestions, s.severity = "critical".toList) →
        config.auto_approve_enabled = true →
        (needs_human_review changed_files diff_stats diff_content suggestions config).1 = false →
      determine_review_event suggestions changed_files diff_stats diff_content config =
        ("APPROVE".toList, [])) := by
  have hcrit : (suggestions.filter (fun s => decide (s.severity = "critical".toList)) ≠ [])
      ↔ ∃ s ∈ suggestions, s.severity = "critical".toList := by
    rw [ne_eq, List.filter_eq_nil_iff]
    push_neg
    simp only [decide_eq_true_eq]
  refine ⟨?_, ?_, ?_, ?_⟩
  · intro hex
    rw [determine_review_event, if_pos (hcrit.mpr hex)]
  · intro hnex hauto
    rw [determine_review_event, if_neg (fun h => hnex (hcrit.mp h)), hauto]
    simp
  · intro hnex hauto hrisk
    rw [determine_review_event, if_neg (fun h => hnex (hcrit.mp h)), hauto]
    simp only [Bool.not_true, Bool.false_eq_true, if_false]
    rw [if_pos hrisk]
  · intro hnex hauto hrisk
    rw [determine_review_event, if_neg (fun h => hnex (hcrit.mp h)), hauto]
    simp only [Bool.not_true, Bool.false_eq_true, if_false]
    rw [if_neg (by rw [hrisk]; exact Bool.false_ne_true)]

/-- A defaults-shaped concrete configuration (matching `defaults/config.yaml`
fallbacks hard-coded in post-review.py) for concrete instantiations. -/
def cfgDefaults : Config :=
  { auto_approve_enabled := true,
    structural_paths := ["migrations/".toList, "alembic/".toList],
    security_paths := ["auth/".toList, "security/".toList, "middleware/".toList],
    security_dep_files := ["requirements.txt".toList, "pyproject.toml".toList,
      "package.json".toList, "package-lock.json".toList, "pnpm-lock.yaml".toList],
    thresholds := ⟨15, 1000, 3⟩,
    domain_paths := [],
    infrastructure_patterns := ["docker-compose".toList, "Dockerfile".toList,
      ".github/workflows/".toList],
    doc_extensions := [".md".toList, ".mdc".toList, ".txt".toList, ".rst".toList] }

/-- `cfgDefaults` with auto-approval disabled by policy. -/
def cfgNoAuto : Config := { cfgDefaults with auto_approve_enabled := false }

/-- Witness for C2: each branch of `determine_review_event_spec` applied at a
concrete input. -/
theorem determine_review_event_spec_witness :
    determine_review_event [⟨"src/a.py".toList, 42, "critical".toList, "Bug".toList, []⟩]
        [] ⟨0,0,0,0⟩ [] cfgDefaults
      = ("REQUEST_CHANGES".toList, ["Critical: Bug".toList])
    ∧ determine_review_event [] [] ⟨0,0,0,0⟩ [] cfgNoAuto
      = ("COMMENT".toList, ["Auto-approval disabled".toList])
    ∧ determine_review_event [] ["alembic/versions/001.py".toList] ⟨0,0,0,0⟩ [] cfgDefaults
      = ("COMMENT".toList,
          ["Structural risk — file matching \x27alembic/\x27 changed".toList])
    ∧ determine_review_event [] ["src/utils.py".toList] ⟨0,0,0,0⟩ [] cfgDefaults
      = ("APPROVE".toList, []) := by
  refine ⟨?_, ?_, ?_, ?_⟩
  · rw [(determine_review_event_spec _ _ _ _ _).1 (by decide)]
    decide
  · exact (determine_review_event_spec _ _ _ _ _).2.1 (by decide) rfl
  · rw [(determine_review_event_spec _ _ _ _ _).2.2.1 (by decide) rfl (by decide)]
    decide
  · exact (determine_review_event_spec _ _ _ _ _).2.2.2 (by decide) rfl (by decide)

/-!
## post-review.py : review payloads  (lines 521–596)

The JSON payloads written to the `gh api --input` files are modelled as
insertion-ordered association lists of JSON values; Python dict insertion
(`payload["commit_id"] = head_sha`) appends the new key.
-/

/-- A JSON value, as far as the review payloads need. -/
inductive JVal where
  | jstr : Str → JVal
  | jint : ℤ → JVal
  | jarr : List JVal → JVal
  | jobj : List (Str × JVal) → JVal

/-- One prepared inline comment (`api_comments` entries in `post_review_via_gh`). -/
structure ApiComment where
  path : Str
  line : ℤ
  side : Str
  body : Str

/-- Key lookup in a JSON object payload. -/
def jsonLookup (d : List (Str × JVal)) (k : Str) : Option JVal :=
  (d.find? (fun kv => decide (kv.1 = k))).map (fun kv => kv.2)

/-- The `review_payload` built by `_post_inline_comment_review`
(post-review.py lines 530–539): body, event `COMMENT`, the comments array, and
`commit_id` appended only when a head SHA is available. -/
def inline_comment_review_payload (head_sha : Option Str)
    (api_comments : List ApiComment) (review_header : Str) : List (Str × JVal) :=
  let base := [
    ("body".toList,
      JVal.jstr (review_header ++ "\nInline comments from automated review.".toList)),
    ("event".toList, JVal.jstr "COMMENT".toList),
    ("comments".toList, JVal.jarr (api_comments.map (fun c => JVal.jobj
      [("path".toList, JVal.jstr c.path), ("line".toList, JVal.jint c.line),
       ("side".toList, JVal.jstr c.side), ("body".toList, JVal.jstr c.body)])))]
  match head_sha with
  | some sha => base ++ [("commit_id".toList, JVal.jstr sha)]
  | none => base

/-- The `review_payload` built by `_post_verdict_review` (post-review.py lines
577–583): a short body with the inline-comment count, the verdict event, and
`commit_id` appended only when a head SHA is available — no comments key. -/
def verdict_review_payload (head_sha : Option Str) (event : Str)
    (review_header : Str) (inline_count : ℕ) : List (Str × JVal) :=
  let detail := if inline_count ≠ 0 then
      natToStr inline_count ++ " inline comment".toList ++
        (if inline_count ≠ 1 then "s".toList else [])
    else "no inline comments".toList
  let base := [
    ("body".toList, JVal.jstr (review_header
      ++ "\nSee summary above for details. (".toList ++ detail ++ ")".toList)),
    ("event".toList, JVal.jstr event)]
  match head_sha with
  | some sha => base ++ [("commit_id".toList, JVal.jstr sha)]
  | none => base

lemma determine_review_event_fst (suggestions : List Suggestion)
    (changed_files : List Str) (diff_stats : DiffStats) (diff_content : Str)
    (config : Config) :
    (determine_review_event suggestions changed_files diff_stats diff_content config).1
        = "APPROVE".toList
    ∨ (determine_review_event suggestions changed_files diff_stats diff_content config).1
        = "REQUEST_CHANGES".toList
    ∨ (determine_review_event suggestions changed_files diff_stats diff_content config).1
        = "COMMENT".toList := by
  rw [determine_review_event]
  split_ifs
  · simp
  · simp
  · simp only []
    split <;> simp

/-- **C1.** The verdict review payload contains no `comments` field; the
inline-comment review payload's event is always `COMMENT`; and the verdict
payload's event field carries exactly the event decided by
`determine_review_event`, which is always one of `APPROVE`,
`REQUEST_CHANGES`, `COMMENT`. -/
theorem review_payload_separation_spec (head_sha : Option Str)
    (review_header : Str) (inline_count : ℕ) (api_comments : List ApiComment)
    (suggestions : List Suggestion) (changed_files : List Str)
    (diff_stats : DiffStats) (diff_content : Str) (config : Config) :
    jsonLookup (verdict_review_payload head_sha
        (determine_review_event suggestions changed_files diff_stats diff_content config).1
        review_header inline_count) "comments".toList = none
    ∧ jsonLookup (inline_comment_review_payload head_sha api_comments review_header)
        "event".toList = some (JVal.jstr "COMMENT".toList)
    ∧ jsonLookup (verdict_review_payload head_sha
        (determine_review_event suggestions changed_files diff_stats diff_content config).1
        review_header inline_count) "event".toList
      = some (JVal.jstr
          (determine_review_event suggestions changed_files diff_stats diff_content config).1)
    ∧ ((determine_review_event suggestions changed_files diff_stats diff_content config).1
          = "APPROVE".toList
       ∨ (determine_review_event suggestions changed_files diff_stats diff_content config).1
          = "REQUEST_CHANGES".toList
       ∨ (determine_review_event suggestions changed_files diff_stats diff_content config).1
          = "COMMENT".toList) := by
  refine ⟨?_, ?_, ?_,
    determine_review_event_fst suggestions changed_files diff_stats diff_content config⟩
  · cases head_sha <;> rfl
  · cases head_sha <;> rfl
  · cases head_sha <;> rfl

/-!
## llm-review.py : `_extract_json` (lines 587–599) and
`run_verification_pass` (lines 602–703)

Decoded JSON values are modelled by `PyVal`; the stdlib `json.loads` is a
black-box collaborator, passed in as a function `Str → Option PyVal` (`none`
models `json.JSONDecodeError`).  The model API conversation of the
verification pass is likewise a collaborator: its observable outcome is either
a raised exception or the final response text, passed in as `Option Str`.
-/

/-- A decoded Python/JSON value. -/
inductive PyVal where
  | pstr : Str → PyVal
  | pint : ℤ → PyVal
  | pbool : Bool → PyVal
  | pnone : PyVal
  | parr : List PyVal → PyVal
  | pobj : List (Str × PyVal) → PyVal

/-- Python truthiness of a decoded JSON value. -/
def truthy : PyVal → Bool
  | .pstr s => !s.isEmpty
  | .pint n => decide (n ≠ 0)
  | .pbool b => b
  | .pnone => false
  | .parr l => !l.isEmpty
  | .pobj l => !l.isEmpty

/-- Python `s == key` for a decoded JSON value against a string. -/
def pyEqStr (key : Str) : PyVal → Bool
  | .pstr s => decide (s = key)
  | _ => false

/-- Python `key in v`: key membership for dicts, element equality for lists,
substring for strings; `none` models the `TypeError` raised on other types. -/
def pyContains (key : Str) : PyVal → Option Bool
  | .pobj fields => some (fields.any (fun kv => decide (kv.1 = key)))
  | .parr items => some (items.any (pyEqStr key))
  | .pstr s => some (isSubstr key s)
  | _ => none

/-- Python `v.get(key, default)` (non-dicts never occur on this path). -/
def pyGet (v : PyVal) (key : Str) (default : PyVal) : PyVal :=
  match v with
  | .pobj fields =>
      match fields.find? (fun kv => decide (kv.1 = key)) with
      | some kv => kv.2
      | none => default
  | _ => default

/-- Python `len(v)`: `none` models the `TypeError` raised on numbers,
booleans and `None`. -/
def pyLen : PyVal → Option ℕ
  | .pstr s => some s.length
  | .parr l => some l.length
  | .pobj l => some l.length
  | _ => none

/-- Python `v.get(key, default)` as the attribute access it is: only dicts
have a `.get` method; `none` models the `AttributeError` raised on lists,
strings and every other value. -/
def pyGetOpt : PyVal → Str → PyVal → Option PyVal
  | .pobj fields, key, default =>
      some (match fields.find? (fun kv => decide (kv.1 = key)) with
            | some kv => kv.2
            | none => default)
  | _, _, _ => none

/-- Python `str.strip()` (whitespace at both ends). -/
def stripStr (s : Str) : Str :=
  ((s.dropWhile Char.isWhitespace).reverse.dropWhile Char.isWhitespace).reverse

/-- The text after the first occurrence of `c`, if any
(`s.split(c, 1)[1]`; `none` models the `IndexError` when `c` is absent). -/
def splitFirstAfter (c : Char) : Str → Option Str
  | [] => none
  | a :: as => if a = c then some as else splitFirstAfter c as

/-- Index of the first occurrence of `c` (`s.find(c)`, `none` for `-1`). -/
def findCharIdx (c : Char) : Str → Option ℕ
  | [] => none
  | a :: as => if a = c then some 0 else (findCharIdx c as).map (· + 1)

/-- The last start index of `pat` as a contiguous substring, if any. -/
def lastStartIdx (pat : Str) : Str → Option ℕ
  | [] => if pat.isEmpty then some 0 else none
  | a :: as =>
    match lastStartIdx pat as with
    | some i => some (i + 1)
    | none => if pat.isPrefixOf (a :: as) then some 0 else none

/-- `s.rsplit(pat, 1)[0]`: everything before the last occurrence of `pat`
(the whole string when `pat` does not occur). -/
def rsplitBefore (pat : Str) (s : Str) : Str :=
  match lastStartIdx pat s with
  | some i => s.take i
  | none => s

/-- The core of `_extract_json`: locate the first `{` and the last `}`, parse
the slice between them if it is nonempty, else parse the whole text. -/
def extract_json_core (loads : Str → Option PyVal) (txt : Str) : Option PyVal :=
  match findCharIdx '{' txt, rfindChar '}' txt with
  | some i, some j => if i < j + 1 then loads ((txt.take (j + 1)).drop i) else loads txt
  | some _, none => loads txt
  | none, _ => loads txt

/-- Embedding of `_extract_json` (llm-review.py lines 587–599).  `Except.error`
models the uncaught `IndexError` raised by `split("\n", 1)[1]` when a fenced
response has no newline (only `json.JSONDecodeError` is caught there). -/
def extract_json (loads : Str → Option PyVal) (raw_text : Str) :
    Except Unit (Option PyVal) :=
  let raw1 := stripStr raw_text
  if "```".toList.isPrefixOf raw1 then
    match splitFirstAfter '\n' raw1 with
    | none => Except.error ()
    | some after =>
        Except.ok (extract_json_core loads (stripStr (rsplitBefore "```".toList after)))
  else Except.ok (extract_json_core loads raw1)

/-- The collaborators `run_verification_pass` interacts with:
whether the verification-rules document exists, the JSON decoder, and the
outcome of the model-API conversation (`none` = a raised transport error,
`some raw` = the final response text). -/
structure VerifyEnv where
  rulesDocExists : Bool
  loads : Str → Option PyVal
  apiOutcome : Option Str

/-- Embedding of `run_verification_pass` (llm-review.py lines 602–703).
All paths of the Python function are represented: empty suggestions and a
missing rules document return early; any exception inside the `try` block is
caught by `except Exception` and yields the original result — the transport
error, the `IndexError` from `_extract_json`, the `TypeError` from
`"suggestions" in verified`, and, after that test passes, the exceptions of
lines 690–692: `len(suggestions)` (`TypeError` on a len-less prior value),
`verified.get("suggestions", [])` (`AttributeError` when the parsed value is
a list or string rather than a dict), and `len(...)` of the got value
(`TypeError` on numbers/booleans/null).  Only a parsed value surviving all of
these *replaces* the result wholesale. -/
def run_verification_pass (env : VerifyEnv) (result : PyVal) : PyVal :=
  let suggestions := pyGet result "suggestions".toList (PyVal.parr [])
  if !truthy suggestions then result
  else if !env.rulesDocExists then result
  else match env.apiOutcome with
    | none => result
    | some raw =>
      match extract_json env.loads raw with
      | .error _ => result
      | .ok none => result
      | .ok (some v) =>
        if truthy v then
          match pyContains "suggestions".toList v with
          | some true =>
            match pyLen suggestions with
            | none => result
            | some _ =>
              match pyGetOpt v "suggestions".toList (PyVal.parr []) with
              | none => result
              | some w =>
                match pyLen w with
                | none => result
                | some _ => v
          | some false => result
          | none => result
        else result

/-- **C8 (amended).** Whenever the verification attempt fails — missing rules
document, transport error, or a response that does not decode to a value the
code accepts (a truthy JSON value passing the `"suggestions" in verified`
test whose subsequent `verified.get("suggestions", [])` and `len(...)` calls
succeed, the prior result's own suggestions value supporting `len` as well) —
`run_verification_pass` returns the original result unchanged; and when the
response is so accepted, the verified output replaces the original result
entirely rather than being merged with it. -/
theorem run_verification_pass_spec (env : VerifyEnv) (result : PyVal) :
    (env.rulesDocExists = false → run_verification_pass env result = result)
    ∧ (env.apiOutcome = none → run_verification_pass env result = result)
    ∧ (∀ raw, env.apiOutcome = some raw →
        (∀ v, extract_json env.loads raw = Except.ok (some v) →
          ¬(truthy v = true ∧ pyContains "suggestions".toList v = some true
            ∧ (pyLen (pyGet result "suggestions".toList (PyVal.parr []))).isSome = true
            ∧ ∃ w, pyGetOpt v "suggestions".toList (PyVal.parr []) = some w
                ∧ (pyLen w).isSome = true)) →
        run_verification_pass env result = result)
    ∧ (∀ raw v w, env.apiOutcome = some raw →
        env.rulesDocExists = true →
        truthy (pyGet result "suggestions".toList (PyVal.parr [])) = true →
        (pyLen (pyGet result "suggestions".toList (PyVal.parr []))).isSome = true →
        extract_json env.loads raw = Except.ok (some v) →
        truthy v = true →
        pyContains "suggestions".toList v = some true →
        pyGetOpt v "suggestions".toList (PyVal.parr []) = some w →
        (pyLen w).isSome = true →
        run_verification_pass env result = v) := by
  refine ⟨?_, ?_, ?_, ?_⟩
  · intro hrules
    rw [run_verification_pass]
    by_cases hs : truthy (pyGet result "suggestions".toList (PyVal.parr [])) = true
    · rw [hs, hrules]
      simp
    · rw [if_pos (by simp only [Bool.not_eq_true] at hs; rw [hs]; rfl)]
  · intro hapi
    rw [run_verification_pass]
    by_cases hs : truthy (pyGet result "suggestions".toList (PyVal.parr [])) = true
    · rw [hs]
      by_cases hr : env.rulesDocExists
      · rw [hr, hapi]
        simp
      · simp only [Bool.not_eq_true] at hr
        rw [hr]
        simp
    · rw [if_pos (by simp only [Bool.not_eq_true] at hs; rw [hs]; rfl)]
  · intro raw hapi hfail
    rw [run_verification_pass]
    by_cases hs : truthy (pyGet result "suggestions".toList (PyVal.parr [])) = true
    · rw [hs]
      by_cases hr : env.rulesDocExists
      · rw [hr, hapi]
        simp only [Bool.not_true, Bool.false_eq_true, if_false]
        rcases hex : extract_json env.loads raw with e | ov
        · rfl
        · rcases ov with _ | v
          · rfl
          · show (if truthy v = true then
                match pyContains "suggestions".toList v with
                | some true =>
                  match pyLen (pyGet result "suggestions".toList (PyVal.parr [])) with
                  | none => result
                  | some _ =>
                    match pyGetOpt v "suggestions".toList (PyVal.parr []) with
                    | none => result
                    | some w =>
                      match pyLen w with
                      | none => result
                      | some _ => v
                | some false => result
                | none => result
              else result) = result
            by_cases hv : truthy v = true
            · rw [if_pos hv]
              rcases hcon : pyContains "suggestions".toList v with _ | b
              · rfl
              · rcases b with _ | _
                · rfl
                · rcases hlen : pyLen (pyGet result "suggestions".toList (PyVal.parr []))
                    with _ | k
                  · rfl
                  · rcases hget : pyGetOpt v "suggestions".toList (PyVal.parr []) with _ | w
                    · rfl
                    · show (match pyLen w with
                          | none => result
                          | some _ => v) = result
                      rcases hlw : pyLen w with _ | m
                      · rfl
                      · exact absurd
                          ⟨hv, hcon, by rw [hlen]; rfl, w, hget, by rw [hlw]; rfl⟩
                          (hfail v hex)
            · rw [if_neg hv]
      · simp only [Bool.not_eq_true] at hr
        rw [hr]
        simp
    · rw [if_pos (by simp only [Bool.not_eq_true] at hs; rw [hs]; rfl)]
  · intro raw v w hapi hrules hsugg hsuglen hex htruthy hcontains hget hlw
    rw [run_verification_pass]
    rw [hsugg, hrules, hapi]
    simp only [Bool.not_true, Bool.false_eq_true, if_false]
    rw [hex]
    show (if truthy v = true then
        match pyContains "suggestions".toList v with
        | some true =>
          match pyLen (pyGet result "suggestions".toList (PyVal.parr [])) with
          | none => result
          | some _ =>
            match pyGetOpt v "suggestions".toList (PyVal.parr []) with
            | none => result
            | some w' =>
              match pyLen w' with
              | none => result
              | some _ => v
        | some false => result
        | none => result
      else result) = v
    obtain ⟨k, hk⟩ := Option.isSome_iff_exists.mp hsuglen
    obtain ⟨m, hm⟩ := Option.isSome_iff_exists.mp hlw
    rw [if_pos htruthy, hcontains, hk, hget]
    show (match pyLen w with
        | none => result
        | some _ => v) = v
    rw [hm]

/-- A concrete environment whose rules document is missing. -/
def envNoRules : VerifyEnv :=
  ⟨false, fun _ => none, none⟩

/-- A concrete environment whose API conversation returns `{}` and whose
decoder yields an object with a `suggestions` key. -/
def envOkVerify : VerifyEnv :=
  ⟨true, fun _ => some (PyVal.pobj [("suggestions".toList, PyVal.parr [])]),
   some "{}".toList⟩

/-- A concrete prior result with one (placeholder) suggestion. -/
def resultWithSuggestion : PyVal :=
  PyVal.pobj [("suggestions".toList, PyVal.parr [PyVal.pobj []])]

/-- A concrete environment whose decoder yields the JSON list
`["suggestions"]` — truthy and passing `"suggestions" in verified`, but a
list, so `verified.get` raises `AttributeError` in the source. -/
def envListSuggs : VerifyEnv :=
  ⟨true, fun _ => some (PyVal.parr [PyVal.pstr "suggestions".toList]),
   some "{}".toList⟩

/-- A concrete environment whose decoder yields the JSON object
`{"suggestions": "abc"}` — an object whose `suggestions` value is a string,
not a list. -/
def envStrValSuggs : VerifyEnv :=
  ⟨true, fun _ => some (PyVal.pobj [("suggestions".toList, PyVal.pstr "abc".toList)]),
   some "{}".toList⟩

/-- **C8, counterexample.** A response decoding to `{"suggestions": "abc"}`
cannot be parsed as a JSON object containing a suggestions *list* (its
suggestions value is a string), so the claim as stated requires the original
result to be returned unchanged; but `len("abc")` succeeds, so the code
accepts it and the parsed object replaces the original result. -/
theorem run_verification_pass_counterexample :
    run_verification_pass envStrValSuggs resultWithSuggestion
        = PyVal.pobj [("suggestions".toList, PyVal.pstr "abc".toList)]
    ∧ run_verification_pass envStrValSuggs resultWithSuggestion
        ≠ resultWithSuggestion := by
  refine ⟨rfl, ?_⟩
  intro h
  exact absurd
    (congrArg (fun x => pyLen (pyGet x "suggestions".toList (PyVal.parr []))) h)
    (by decide)

/-- Witness for C8 (amended): the theorem applied at concrete environments —
a missing rules document keeps the result, a parsed list passing the
containment test keeps the result (the `.get` attribute error path), and an
accepted object replaces it. -/
theorem run_verification_pass_spec_witness :
    run_verification_pass envNoRules resultWithSuggestion = resultWithSuggestion
    ∧ run_verification_pass envListSuggs resultWithSuggestion = resultWithSuggestion
    ∧ run_verification_pass envOkVerify resultWithSuggestion
        = PyVal.pobj [("suggestions".toList, PyVal.parr [])] :=
  ⟨(run_verification_pass_spec envNoRules resultWithSuggestion).1 rfl,
   (run_verification_pass_spec envListSuggs resultWithSuggestion).2.2.1
     "{}".toList rfl
     (fun v hv => by
       have h0 : extract_json envListSuggs.loads "{}".toList
           = Except.ok (some (PyVal.parr [PyVal.pstr "suggestions".toList])) := rfl
       rw [h0] at hv
       have hv' := Option.some.inj (Except.ok.inj hv)
       rintro ⟨-, -, -, w, hw, -⟩
       rw [← hv'] at hw
       exact Option.noConfusion hw),
   (run_verification_pass_spec envOkVerify resultWithSuggestion).2.2.2
     "{}".toList (PyVal.pobj [("suggestions".toList, PyVal.parr [])]) (PyVal.parr [])
     rfl rfl rfl rfl rfl rfl rfl rfl rfl⟩

/-!
## llm-review.py : `_validate_path` (lines 129–137) and `tool_read_file`
(lines 163–188)

The filesystem is modelled explicitly: an absolute path is its list of
components, `Path.resolve()` is lexical normalization (the model has no
symbolic links), and `str(path)` renders `/`-joined components.  `execute_tool`
(lines 140–160) dispatches `read_file` to `tool_read_file`, whose confinement
check is

    resolved = (REPO_ROOT / user_path).resolve()
    if not str(resolved).startswith(str(REPO_ROOT.resolve())): return None

— a *string*-prefix test on the rendered paths.
-/

/-- An absolute filesystem path as its list of components. -/
abbrev AbsPath := List Str

/-- `str(path)` for an absolute path: `/`-joined components. -/
def pathToStr (p : AbsPath) : Str := '/' :: joinWith "/".toList p

/-- One component step of lexical path resolution: empty and `.` components
are skipped, `..` pops, anything else pushes. -/
def resolveStep (acc : AbsPath) (comp : Str) : AbsPath :=
  if comp = [] ∨ comp = ".".toList then acc
  else if comp = "..".toList then acc.dropLast
  else acc ++ [comp]

/-- `(root / user).resolve()` in the symlink-free model: an absolute `user`
replaces `root` (the semantics of `pathlib`'s `/`), then components are
normalized lexically. -/
def joinResolve (root : AbsPath) (user : Str) : AbsPath :=
  let start := if "/".toList.isPrefixOf user then [] else root
  (user.splitOn '/').foldl resolveStep start

/-- Embedding of `_validate_path` (llm-review.py lines 129–137): the
confinement test compares *rendered strings* with `startswith`. -/
def validate_path (root : AbsPath) (user : Str) : Option AbsPath :=
  let resolved := joinResolve root user
  if (pathToStr root).isPrefixOf (pathToStr resolved) then some resolved else none

/-- The filesystem visible to the tools: regular files (with their lines) and
directories. -/
structure FSModel where
  files : List (AbsPath × List Str)
  dirs : List AbsPath

/-- `path.is_file()`. -/
def FSModel.isFile (fs : FSModel) (p : AbsPath) : Bool :=
  fs.files.any (fun f => decide (f.1 = p))

/-- `path.exists()`. -/
def FSModel.fsExists (fs : FSModel) (p : AbsPath) : Bool :=
  fs.isFile p || fs.dirs.any (fun d => decide (d = p))

/-- The lines of a regular file. -/
def FSModel.readLines (fs : FSModel) (p : AbsPath) : List Str :=
  match fs.files.find? (fun f => decide (f.1 = p)) with
  | some f => f.2
  | none => []

/-- `f"{n:4d}"`: decimal, right-justified to width 4. -/
def padTo4 (s : Str) : Str :=
  if s.length < 4 then List.replicate (4 - s.length) ' ' ++ s else s

/-- One output line of `tool_read_file`: `f"{i + start + 1:4d} | {line}"`. -/
def numberedLine (n : ℕ) (line : Str) : Str :=
  padTo4 (natToStr n) ++ " | ".toList ++ line

/-- Embedding of `tool_read_file` (llm-review.py lines 163–188): validate the
path, report missing/non-file paths as text, slice the requested line window
(at most 200 lines), append a truncation marker when the cap is hit, and
return 1-indexed numbered lines. -/
def tool_read_file (root : AbsPath) (fs : FSModel) (path : Str)
    (start_line end_line : Option ℤ) : Str :=
  match validate_path root path with
  | none => "Access denied: path is outside the repository".toList
  | some filepath =>
    if !(fs.fsExists filepath) then "File not found: ".toList ++ path
    else if !(fs.isFile filepath) then "Not a file: ".toList ++ path
    else
      let start : ℤ := max 0 ((start_line.getD 1) - 1)
      let max_lines : ℤ := match end_line with
        | some e => min (e - start) 200
        | none => 200
      let selected := ((fs.readLines filepath).drop start.toNat).take max_lines.toNat
      let total_lines_hint := start.toNat + selected.length
      let selected2 := if 200 ≤ selected.length then
          selected ++ ["... [truncated at 200 lines — file continues beyond line ".toList
            ++ natToStr total_lines_hint ++ "]".toList]
        else selected
      joinWith "\n".toList
        (selected2.enum.map (fun ie => numberedLine (ie.1 + start.toNat + 1) ie.2))

/-- **C9 (code bug).** The claim — and `_validate_path`'s own docstring
("Validate that a user-supplied path stays within REPO_ROOT") — require an
access-denied result whenever the resolved path leaves the repository root.
But the check is a string-prefix test, so with root `/repo` the input
`../repo-secrets/key.txt` resolves to `/repo-secrets/key.txt` (NOT under the
root), passes validation because the string `/repo-secrets/key.txt` starts
with the string `/repo`, and the file's content is disclosed. -/
theorem tool_read_file_traversal_code_bug :
    ¬ (["repo".toList] <+: ["repo-secrets".toList, "key.txt".toList])
    ∧ joinResolve ["repo".toList] "../repo-secrets/key.txt".toList
        = ["repo-secrets".toList, "key.txt".toList]
    ∧ validate_path ["repo".toList] "../repo-secrets/key.txt".toList
        = some ["repo-secrets".toList, "key.txt".toList]
    ∧ tool_read_file ["repo".toList]
        ⟨[(["repo-secrets".toList, "key.txt".toList], ["SECRET".toList])], []⟩
        "../repo-secrets/key.txt".toList none none
        = "   1 | SECRET".toList
    ∧ tool_read_file ["repo".toList]
        ⟨[(["repo-secrets".toList, "key.txt".toList], ["SECRET".toList])], []⟩
        "../repo-secrets/key.txt".toList none none
        ≠ "Access denied: path is outside the repository".toList := by
  refine ⟨by decide, by decide, by decide, by decide, by decide⟩

/-!
## post-review.py : `get_diff_line_sets` (lines 176–199) and
`get_changed_line_ranges` (lines 202–231)

Both functions split the diff text on `"\n"` and fold a parser state over the
lines.  `re.search(r"\+(\d+)", line)` is embedded as a scan for the first `+`
followed immediately by a digit, capturing the maximal digit run (`\d` is
modelled as an ASCII digit, which is what hunk headers contain).
-/

/-- Decimal value of a digit run. -/
def digitsVal (ds : Str) : ℕ :=
  ds.foldl (fun acc c => acc * 10 + (c.toNat - '0'.toNat)) 0

/-- Embedding of `re.search(r"\+(\d+)", line)`, returning the captured number:
the first position holding `'+'` followed by at least one digit matches, and
the capture is the maximal digit run after that `'+'`. -/
def findPlusNum : Str → Option ℕ
  | [] => none
  | c :: rest =>
    if c = '+' ∧ rest.takeWhile Char.isDigit ≠ [] then
      some (digitsVal (rest.takeWhile Char.isDigit))
    else findPlusNum rest

/-- The mutable state of both diff parsers: the dict built so far, the current
file (if inside a `+++ b/` section), and the running new-side line counter. -/
structure ParseState where
  dict : List (Str × Finset ℤ)
  currentFile : Option Str
  currentNewLine : ℤ

/-- One line step of `get_diff_line_sets` (post-review.py lines 182–197):
`diff --git` resets the file, `+++ b/` opens a file with a fresh empty set, a
hunk header re-primes the counter from its `+N` token, and inside a file an
added or context line advances the counter and records it. -/
def diffLineSetsStep (st : ParseState) (line : Str) : ParseState :=
  if List.isPrefixOf "diff --git".toList line then
    { st with currentFile := none }
  else if List.isPrefixOf "+++ b/".toList line then
    { st with currentFile := some (line.drop 6),
              dict := dictSetEmpty st.dict (line.drop 6) }
  else if List.isPrefixOf "@@ ".toList line then
    match findPlusNum line with
    | some n => { st with currentNewLine := (n : ℤ) - 1 }
    | none => st
  else
    match st.currentFile with
    | none => st
    | some f =>
      if List.isPrefixOf "+".toList line || List.isPrefixOf " ".toList line then
        { st with currentNewLine := st.currentNewLine + 1,
                  dict := dictAddLine st.dict f (st.currentNewLine + 1) }
      else st

/-- Embedding of `get_diff_line_sets` (post-review.py lines 176–199). -/
def get_diff_line_sets (diff_text : Str) : List (Str × Finset ℤ) :=
  ((diff_text.splitOn '\n').foldl diffLineSetsStep ⟨[], none, 0⟩).dict

/-- One line step of `get_changed_line_ranges` (post-review.py lines 212–229):
like `diffLineSetsStep`, except `+++ b/` uses `setdefault` (keeping an
existing entry), only added lines are recorded, and context lines advance the
counter without recording. -/
def changedLineRangesStep (st : ParseState) (line : Str) : ParseState :=
  if List.isPrefixOf "diff --git".toList line then
    { st with currentFile := none }
  else if List.isPrefixOf "+++ b/".toList line then
    { st with currentFile := some (line.drop 6),
              dict := dictSetdefaultEmpty st.dict (line.drop 6) }
  else if List.isPrefixOf "@@ ".toList line then
    match findPlusNum line with
    | some n => { st with currentNewLine := (n : ℤ) - 1 }
    | none => st
  else
    match st.currentFile with
    | none => st
    | some f =>
      if List.isPrefixOf "+".toList line then
        { st with currentNewLine := st.currentNewLine + 1,
                  dict := dictAddLine st.dict f (st.currentNewLine + 1) }
      else if List.isPrefixOf " ".toList line then
        { st with currentNewLine := st.currentNewLine + 1 }
      else st

/-- Embedding of `get_changed_line_ranges` (post-review.py lines 202–231). -/
def get_changed_line_ranges (diff_text : Str) : List (Str × Finset ℤ) :=
  ((diff_text.splitOn '\n').foldl changedLineRangesStep ⟨[], none, 0⟩).dict

/-!
### Structured unified diffs and their rendering

Claims C6 and C10 quantify over unified-diff texts.  We represent such a text
by its structure — file patches made of hunks made of added / context /
removed lines — together with a well-formedness predicate, and render it to
text.  The spec-side reconstruction (`specReplay`) follows §4.1 / §8 of the
spec: a hunk header supplies the new-side starting line number, each added or
context line records the counter and advances it, removed lines do not
advance it.
-/

/-- One body line of a hunk. -/
inductive DiffLine where
  | add : Str → DiffLine
  | ctx : Str → DiffLine
  | del : Str → DiffLine

/-- Its rendering: `+` / space / `-` followed by the content. -/
def renderDiffLine : DiffLine → Str
  | .add s => '+' :: s
  | .ctx s => ' ' :: s
  | .del s => '-' :: s

/-- A hunk: its header line, the new-side start parsed from the header's `+N`
token, and its body lines. -/
structure Hunk where
  header : Str
  newStart : ℕ
  lines : List DiffLine

/-- A file patch: the `b/`-side path and the hunks. -/
structure FilePatch where
  path : Str
  hunks : List Hunk

/-- Rendered hunk: header followed by its body lines. -/
def renderHunk (h : Hunk) : List Str :=
  h.header :: h.lines.map renderDiffLine

/-- Rendered file patch: the `diff --git a/<p> b/<p>`, `--- a/<p>` and
`+++ b/<p>` header lines, then the hunks (the groupings below spell the same
strings). -/
def renderFilePatch (fp : FilePatch) : List Str :=
  ("diff --git".toList ++ (" a/".toList ++ fp.path ++ " b/".toList ++ fp.path))
  :: ('-' :: ("-- a/".toList ++ fp.path))
  :: ("+++ b/".toList ++ fp.path)
  :: (fp.hunks.map renderHunk).flatten

/-- All rendered lines of a diff. -/
def renderDiffLines (fps : List FilePatch) : List Str :=
  (fps.map renderFilePatch).flatten

/-- The rendered unified-diff text: lines joined by newlines. -/
def renderDiff (fps : List FilePatch) : Str :=
  ['\n'].intercalate (renderDiffLines fps)

/-- A body line is well formed when its content has no newline and, for an
added line, does not make the rendered line collide with a `+++ b/` header. -/
def lineOk : DiffLine → Prop
  | .add s => '\n' ∉ s ∧ List.isPrefixOf "++ b/".toList s = false
  | .ctx s => '\n' ∉ s
  | .del s => '\n' ∉ s

instance (l : DiffLine) : Decidable (lineOk l) := by
  cases l <;> simp only [lineOk] <;> infer_instance

/-- A hunk is well formed when its header is a real `@@ ` header whose first
`+N` token is `newStart`, contains no newline, and its body lines are well
formed. -/
def hunkOk (h : Hunk) : Prop :=
  List.isPrefixOf "@@ ".toList h.header = true
  ∧ findPlusNum h.header = some h.newStart
  ∧ '\n' ∉ h.header
  ∧ ∀ l ∈ h.lines, lineOk l

instance (h : Hunk) : Decidable (hunkOk h) := by
  unfold hunkOk; infer_instance

/-- A file patch is well formed when its path has no newline and its hunks are
well formed. -/
def filePatchOk (fp : FilePatch) : Prop :=
  '\n' ∉ fp.path ∧ ∀ h ∈ fp.hunks, hunkOk h

instance (fp : FilePatch) : Decidable (filePatchOk fp) := by
  unfold filePatchOk; infer_instance

/-- A diff is well formed when its file paths are distinct and every file
patch is well formed. -/
def diffOk (fps : List FilePatch) : Prop :=
  (fps.map FilePatch.path).Nodup ∧ ∀ fp ∈ fps, filePatchOk fp

instance (fps : List FilePatch) : Decidable (diffOk fps) := by
  unfold diffOk; infer_instance

/-- The spec-side reconstruction of commentable lines: starting from counter
`c`, an added or context line records the counter and advances it; a removed
line does nothing. -/
def specReplay : ℤ → List DiffLine → Finset ℤ
  | _, [] => ∅
  | c, .add _ :: rest => insert c (specReplay (c + 1) rest)
  | c, .ctx _ :: rest => insert c (specReplay (c + 1) rest)
  | c, .del _ :: rest => specReplay c rest

/-- The spec-side reconstruction of *added* lines: only added lines record,
added and context lines advance. -/
def specReplayAdded : ℤ → List DiffLine → Finset ℤ
  | _, [] => ∅
  | c, .add _ :: rest => insert c (specReplayAdded (c + 1) rest)
  | c, .ctx _ :: rest => specReplayAdded (c + 1) rest
  | c, .del _ :: rest => specReplayAdded c rest

/-- Number of new-side (added or context) lines in a hunk body. -/
def newCount : List DiffLine → ℕ
  | [] => 0
  | .add _ :: rest => newCount rest + 1
  | .ctx _ :: rest => newCount rest + 1
  | .del _ :: rest => newCount rest

/-- Commentable lines reconstructed for one hunk: the counter starts at the
header's `+N` value. -/
def replayHunk (h : Hunk) : Finset ℤ := specReplay (h.newStart : ℤ) h.lines

/-- Added lines reconstructed for one hunk. -/
def replayHunkAdded (h : Hunk) : Finset ℤ := specReplayAdded (h.newStart : ℤ) h.lines

/-- Commentable lines reconstructed for a file: union over its hunks. -/
def replayFilePatch (fp : FilePatch) : Finset ℤ :=
  (fp.hunks.map replayHunk).foldl (· ∪ ·) ∅

/-- Added lines reconstructed for a file. -/
def replayFilePatchAdded (fp : FilePatch) : Finset ℤ :=
  (fp.hunks.map replayHunkAdded).foldl (· ∪ ·) ∅

/-!
### Helper lemmas: `isPrefixOf` evaluation and dict algebra
-/

lemma isPrefixOf_true_iff {l₁ l₂ : Str} :
    List.isPrefixOf l₁ l₂ = true ↔ ∃ t, l₁ ++ t = l₂ := by
  rw [ List.isPrefixOf_iff_prefix]
  exact Iff.rfl

lemma isPrefixOf_append_self (l r : Str) : List.isPrefixOf l (l ++ r) = true :=
  isPrefixOf_true_iff.mpr ⟨r, rfl⟩

lemma isPrefixOf_head_ne {a b : Char} (h : a ≠ b) (as bs : Str) :
    List.isPrefixOf (a :: as) (b :: bs) = false := by
  simp [List.isPrefixOf, h]

lemma isPrefixOf_cons_same (a : Char) (as bs : Str) :
    List.isPrefixOf (a :: as) (a :: bs) = List.isPrefixOf as bs := by
  simp [List.isPrefixOf]

/-- The keys of a dict, in insertion order. -/
def keysOf (d : List (Str × Finset ℤ)) : List Str := d.map Prod.fst

/-- Union `s` into the binding of `k` (appending `(k, s)` when absent):
the combined effect of repeated `dictAddLine` calls. -/
def dictU : List (Str × Finset ℤ) → Str → Finset ℤ → List (Str × Finset ℤ)
  | [], k, s => [(k, s)]
  | (k', v) :: rest, k, s =>
      if k' = k then (k', v ∪ s) :: rest else (k', v) :: dictU rest k s

lemma dictAddLine_eq_dictU (d : List (Str × Finset ℤ)) (k : Str) (n : ℤ) :
    dictAddLine d k n = dictU d k {n} := by
  induction d with
  | nil => rfl
  | cons kv rest ih =>
    obtain ⟨k', v⟩ := kv
    rw [dictAddLine, dictU]
    by_cases h : k' = k
    · rw [if_pos h, if_pos h, Finset.union_comm, ← Finset.insert_eq]
    · rw [if_neg h, if_neg h, ih]

lemma dictU_dictU (d : List (Str × Finset ℤ)) (k : Str) (s t : Finset ℤ) :
    dictU (dictU d k s) k t = dictU d k (s ∪ t) := by
  induction d with
  | nil => simp [dictU]
  | cons kv rest ih =>
    obtain ⟨k', v⟩ := kv
    rw [dictU]
    by_cases h : k' = k
    · rw [if_pos h, dictU, if_pos h, dictU, if_pos h, Finset.union_assoc]
    · rw [if_neg h, dictU, if_neg h, dictU, if_neg h, ih]

lemma dictU_empty (d : List (Str × Finset ℤ)) (k : Str) (h : k ∈ keysOf d) :
    dictU d k ∅ = d := by
  induction d with
  | nil => simp [keysOf] at h
  | cons kv rest ih =>
    obtain ⟨k', v⟩ := kv
    rw [dictU]
    by_cases hk : k' = k
    · rw [if_pos hk, Finset.union_empty]
    · rw [if_neg hk, ih]
      rcases (List.mem_cons.mp h) with he | hm
      · exact absurd he.symm hk
      · exact hm

lemma mem_keysOf_dictU (d : List (Str × Finset ℤ)) (k : Str) (s : Finset ℤ) :
    k ∈ keysOf (dictU d k s) := by
  induction d with
  | nil => simp [dictU, keysOf]
  | cons kv rest ih =>
    obtain ⟨k', v⟩ := kv
    rw [dictU]
    by_cases h : k' = k
    · rw [if_pos h]
      exact List.mem_cons.mpr (Or.inl h.symm)
    · rw [if_neg h]
      exact List.mem_cons.mpr (Or.inr ih)

lemma dictSetEmpty_of_not_mem (d : List (Str × Finset ℤ)) (k : Str)
    (h : k ∉ keysOf d) : dictSetEmpty d k = d ++ [(k, ∅)] := by
  induction d with
  | nil => rfl
  | cons kv rest ih =>
    obtain ⟨k', v⟩ := kv
    rw [dictSetEmpty]
    have hne : k' ≠ k := fun he => h (List.mem_cons.mpr (Or.inl he.symm))
    rw [if_neg hne, ih (fun hm => h (List.mem_cons.mpr (Or.inr hm))), List.cons_append]

lemma dictSetdefaultEmpty_of_not_mem (d : List (Str × Finset ℤ)) (k : Str)
    (h : k ∉ keysOf d) : dictSetdefaultEmpty d k = d ++ [(k, ∅)] := by
  induction d with
  | nil => rfl
  | cons kv rest ih =>
    obtain ⟨k', v⟩ := kv
    rw [dictSetdefaultEmpty]
    have hne : k' ≠ k := fun he => h (List.mem_cons.mpr (Or.inl he.symm))
    rw [if_neg hne, ih (fun hm => h (List.mem_cons.mpr (Or.inr hm))), List.cons_append]

lemma dictU_append_of_not_mem (d : List (Str × Finset ℤ)) (k : Str)
    (v s : Finset ℤ) (h : k ∉ keysOf d) :
    dictU (d ++ [(k, v)]) k s = d ++ [(k, v ∪ s)] := by
  induction d with
  | nil => simp [dictU]
  | cons kv rest ih =>
    obtain ⟨k', v'⟩ := kv
    have hne : k' ≠ k := fun he => h (List.mem_cons.mpr (Or.inl he.symm))
    rw [List.cons_append, dictU, if_neg hne,
      ih (fun hm => h (List.mem_cons.mpr (Or.inr hm))), List.cons_append]

lemma keysOf_append (d₁ d₂ : List (Str × Finset ℤ)) :
    keysOf (d₁ ++ d₂) = keysOf d₁ ++ keysOf d₂ := by
  simp [keysOf]

/-!
### Step-evaluation lemmas for the two parsers
-/

lemma sets_step_dg {st : ParseState} {line : Str}
    (h : List.isPrefixOf "diff --git".toList line = true) :
    diffLineSetsStep st line = { st with currentFile := none } := by
  rw [diffLineSetsStep, if_pos h]

lemma sets_step_file (st : ParseState) (p : Str) :
    diffLineSetsStep st ("+++ b/".toList ++ p)
      = { st with currentFile := some p, dict := dictSetEmpty st.dict p } := by
  have h1 : List.isPrefixOf "diff --git".toList ("+++ b/".toList ++ p) = false :=
    isPrefixOf_head_ne (show ('d' : Char) ≠ '+' by decide) "iff --git".toList
      ("++ b/".toList ++ p)
  have hdrop : ("+++ b/".toList ++ p).drop 6 = p := List.drop_left "+++ b/".toList p
  rw [diffLineSetsStep, if_neg (by rw [h1]; exact Bool.false_ne_true),
    if_pos (isPrefixOf_append_self _ _), hdrop]

lemma sets_step_header {st : ParseState} {line : Str} {n : ℕ}
    (hpre : List.isPrefixOf "@@ ".toList line = true)
    (hnum : findPlusNum line = some n) :
    diffLineSetsStep st line = { st with currentNewLine := (n : ℤ) - 1 } := by
  obtain ⟨t, ht⟩ := isPrefixOf_true_iff.mp hpre
  subst ht
  have h1 : List.isPrefixOf "diff --git".toList ("@@ ".toList ++ t) = false :=
    isPrefixOf_head_ne (show ('d' : Char) ≠ '@' by decide) "iff --git".toList
      ("@ ".toList ++ t)
  have h2 : List.isPrefixOf "+++ b/".toList ("@@ ".toList ++ t) = false :=
    isPrefixOf_head_ne (show ('+' : Char) ≠ '@' by decide) "++ b/".toList
      ("@ ".toList ++ t)
  rw [diffLineSetsStep, if_neg (by rw [h1]; exact Bool.false_ne_true),
    if_neg (by rw [h2]; exact Bool.false_ne_true), if_pos hpre, hnum]

lemma sets_step_add (d : List (Str × Finset ℤ)) (f : Str) (c : ℤ) (s : Str)
    (h : List.isPrefixOf "++ b/".toList s = false) :
    diffLineSetsStep ⟨d, some f, c⟩ ('+' :: s)
      = ⟨dictAddLine d f (c + 1), some f, c + 1⟩ := by
  have h1 : List.isPrefixOf "diff --git".toList ('+' :: s) = false :=
    isPrefixOf_head_ne (show ('d' : Char) ≠ '+' by decide) "iff --git".toList s
  have h2 : List.isPrefixOf "+++ b/".toList ('+' :: s) = false := by
    rw [show ("+++ b/".toList : Str) = '+' :: "++ b/".toList from rfl,
      isPrefixOf_cons_same, h]
  have h3 : List.isPrefixOf "@@ ".toList ('+' :: s) = false :=
    isPrefixOf_head_ne (show ('@' : Char) ≠ '+' by decide) "@ ".toList s
  have h4 : List.isPrefixOf "+".toList ('+' :: s) = true := by
    rw [show ("+".toList : Str) = '+' :: [] from rfl, isPrefixOf_cons_same]
    cases s <;> rfl
  rw [diffLineSetsStep, if_neg (by rw [h1]; exact Bool.false_ne_true),
    if_neg (by rw [h2]; exact Bool.false_ne_true),
    if_neg (by rw [h3]; exact Bool.false_ne_true)]
  show (if (List.isPrefixOf "+".toList ('+' :: s)
        || List.isPrefixOf " ".toList ('+' :: s)) = true
      then ({ dict := dictAddLine d f (c + 1), currentFile := some f,
              currentNewLine := c + 1 } : ParseState)
      else ⟨d, some f, c⟩) = ⟨dictAddLine d f (c + 1), some f, c + 1⟩
  rw [if_pos (by rw [h4, Bool.true_or])]

lemma sets_step_ctx (d : List (Str × Finset ℤ)) (f : Str) (c : ℤ) (s : Str) :
    diffLineSetsStep ⟨d, some f, c⟩ (' ' :: s)
      = ⟨dictAddLine d f (c + 1), some f, c + 1⟩ := by
  have h1 : List.isPrefixOf "diff --git".toList (' ' :: s) = false :=
    isPrefixOf_head_ne (show ('d' : Char) ≠ ' ' by decide) "iff --git".toList s
  have h2 : List.isPrefixOf "+++ b/".toList (' ' :: s) = false :=
    isPrefixOf_head_ne (show ('+' : Char) ≠ ' ' by decide) "++ b/".toList s
  have h3 : List.isPrefixOf "@@ ".toList (' ' :: s) = false :=
    isPrefixOf_head_ne (show ('@' : Char) ≠ ' ' by decide) "@ ".toList s
  have h4 : List.isPrefixOf " ".toList (' ' :: s) = true := by
    rw [show (" ".toList : Str) = ' ' :: [] from rfl, isPrefixOf_cons_same]
    cases s <;> rfl
  have h5 : List.isPrefixOf "+".toList (' ' :: s) = false :=
    isPrefixOf_head_ne (show ('+' : Char) ≠ ' ' by decide) [] s
  rw [diffLineSetsStep, if_neg (by rw [h1]; exact Bool.false_ne_true),
    if_neg (by rw [h2]; exact Bool.false_ne_true),
    if_neg (by rw [h3]; exact Bool.false_ne_true)]
  show (if (List.isPrefixOf "+".toList (' ' :: s)
        || List.isPrefixOf " ".toList (' ' :: s)) = true
      then ({ dict := dictAddLine d f (c + 1), currentFile := some f,
              currentNewLine := c + 1 } : ParseState)
      else ⟨d, some f, c⟩) = ⟨dictAddLine d f (c + 1), some f, c + 1⟩
  rw [if_pos (by rw [h4, h5, Bool.false_or])]

lemma sets_step_del (st : ParseState) (s : Str) :
    diffLineSetsStep st ('-' :: s) = st := by
  have h1 : List.isPrefixOf "diff --git".toList ('-' :: s) = false :=
    isPrefixOf_head_ne (show ('d' : Char) ≠ '-' by decide) "iff --git".toList s
  have h2 : List.isPrefixOf "+++ b/".toList ('-' :: s) = false :=
    isPrefixOf_head_ne (show ('+' : Char) ≠ '-' by decide) "++ b/".toList s
  have h3 : List.isPrefixOf "@@ ".toList ('-' :: s) = false :=
    isPrefixOf_head_ne (show ('@' : Char) ≠ '-' by decide) "@ ".toList s
  have h4 : List.isPrefixOf "+".toList ('-' :: s) = false :=
    isPrefixOf_head_ne (show ('+' : Char) ≠ '-' by decide) [] s
  have h5 : List.isPrefixOf " ".toList ('-' :: s) = false :=
    isPrefixOf_head_ne (show (' ' : Char) ≠ '-' by decide) [] s
  obtain ⟨d, cf, c⟩ := st
  rw [diffLineSetsStep, if_neg (by rw [h1]; exact Bool.false_ne_true),
    if_neg (by rw [h2]; exact Bool.false_ne_true),
    if_neg (by rw [h3]; exact Bool.false_ne_true)]
  cases cf with
  | none => rfl
  | some f =>
    show (if (List.isPrefixOf "+".toList ('-' :: s)
          || List.isPrefixOf " ".toList ('-' :: s)) = true
        then ({ dict := dictAddLine d f (c + 1), currentFile := some f,
                currentNewLine := c + 1 } : ParseState)
        else ⟨d, some f, c⟩) = ⟨d, some f, c⟩
    rw [if_neg (by rw [h4, h5, Bool.or_self]; exact Bool.false_ne_true)]

lemma ranges_step_dg {st : ParseState} {line : Str}
    (h : List.isPrefixOf "diff --git".toList line = true) :
    changedLineRangesStep st line = { st with currentFile := none } := by
  rw [changedLineRangesStep, if_pos h]

lemma ranges_step_file (st : ParseState) (p : Str) :
    changedLineRangesStep st ("+++ b/".toList ++ p)
      = { st with currentFile := some p, dict := dictSetdefaultEmpty st.dict p } := by
  have h1 : List.isPrefixOf "diff --git".toList ("+++ b/".toList ++ p) = false :=
    isPrefixOf_head_ne (show ('d' : Char) ≠ '+' by decide) "iff --git".toList
      ("++ b/".toList ++ p)
  have hdrop : ("+++ b/".toList ++ p).drop 6 = p := List.drop_left "+++ b/".toList p
  rw [changedLineRangesStep, if_neg (by rw [h1]; exact Bool.false_ne_true),
    if_pos (isPrefixOf_append_self _ _), hdrop]

lemma ranges_step_header {st : ParseState} {line : Str} {n : ℕ}
    (hpre : List.isPrefixOf "@@ ".toList line = true)
    (hnum : findPlusNum line = some n) :
    changedLineRangesStep st line = { st with currentNewLine := (n : ℤ) - 1 } := by
  obtain ⟨t, ht⟩ := isPrefixOf_true_iff.mp hpre
  subst ht
  have h1 : List.isPrefixOf "diff --git".toList ("@@ ".toList ++ t) = false :=
    isPrefixOf_head_ne (show ('d' : Char) ≠ '@' by decide) "iff --git".toList
      ("@ ".toList ++ t)
  have h2 : List.isPrefixOf "+++ b/".toList ("@@ ".toList ++ t) = false :=
    isPrefixOf_head_ne (show ('+' : Char) ≠ '@' by decide) "++ b/".toList
      ("@ ".toList ++ t)
  rw [changedLineRangesStep, if_neg (by rw [h1]; exact Bool.false_ne_true),
    if_neg (by rw [h2]; exact Bool.false_ne_true), if_pos hpre, hnum]

lemma ranges_step_add (d : List (Str × Finset ℤ)) (f : Str) (c : ℤ) (s : Str)
    (h : List.isPrefixOf "++ b/".toList s = false) :
    changedLineRangesStep ⟨d, some f, c⟩ ('+' :: s)
      = ⟨dictAddLine d f (c + 1), some f, c + 1⟩ := by
  have h1 : List.isPrefixOf "diff --git".toList ('+' :: s) = false :=
    isPrefixOf_head_ne (show ('d' : Char) ≠ '+' by decide) "iff --git".toList s
  have h2 : List.isPrefixOf "+++ b/".toList ('+' :: s) = false := by
    rw [show ("+++ b/".toList : Str) = '+' :: "++ b/".toList from rfl,
      isPrefixOf_cons_same, h]
  have h3 : List.isPrefixOf "@@ ".toList ('+' :: s) = false :=
    isPrefixOf_head_ne (show ('@' : Char) ≠ '+' by decide) "@ ".toList s
  have h4 : List.isPrefixOf "+".toList ('+' :: s) = true := by
    rw [show ("+".toList : Str) = '+' :: [] from rfl, isPrefixOf_cons_same]
    cases s <;> rfl
  rw [changedLineRangesStep, if_neg (by rw [h1]; exact Bool.false_ne_true),
    if_neg (by rw [h2]; exact Bool.false_ne_true),
    if_neg (by rw [h3]; exact Bool.false_ne_true)]
  show (if List.isPrefixOf "+".toList ('+' :: s) = true
      then ({ dict := dictAddLine d f (c + 1), currentFile := some f,
              currentNewLine := c + 1 } : ParseState)
      else if List.isPrefixOf " ".toList ('+' :: s) = true
        then ({ dict := d, currentFile := some f, currentNewLine := c + 1 } : ParseState)
        else ⟨d, some f, c⟩) = ⟨dictAddLine d f (c + 1), some f, c + 1⟩
  rw [if_pos h4]

lemma ranges_step_ctx (d : List (Str × Finset ℤ)) (f : Str) (c : ℤ) (s : Str) :
    changedLineRangesStep ⟨d, some f, c⟩ (' ' :: s) = ⟨d, some f, c + 1⟩ := by
  have h1 : List.isPrefixOf "diff --git".toList (' ' :: s) = false :=
    isPrefixOf_head_ne (show ('d' : Char) ≠ ' ' by decide) "iff --git".toList s
  have h2 : List.isPrefixOf "+++ b/".toList (' ' :: s) = false :=
    isPrefixOf_head_ne (show ('+' : Char) ≠ ' ' by decide) "++ b/".toList s
  have h3 : List.isPrefixOf "@@ ".toList (' ' :: s) = false :=
    isPrefixOf_head_ne (show ('@' : Char) ≠ ' ' by decide) "@ ".toList s
  have h4 : List.isPrefixOf " ".toList (' ' :: s) = true := by
    rw [show (" ".toList : Str) = ' ' :: [] from rfl, isPrefixOf_cons_same]
    cases s <;> rfl
  have h5 : List.isPrefixOf "+".toList (' ' :: s) = false :=
    isPrefixOf_head_ne (show ('+' : Char) ≠ ' ' by decide) [] s
  rw [changedLineRangesStep, if_neg (by rw [h1]; exact Bool.false_ne_true),
    if_neg (by rw [h2]; exact Bool.false_ne_true),
    if_neg (by rw [h3]; exact Bool.false_ne_true)]
  show (if List.isPrefixOf "+".toList (' ' :: s) = true
      then ({ dict := dictAddLine d f (c + 1), currentFile := some f,
              currentNewLine := c + 1 } : ParseState)
      else if List.isPrefixOf " ".toList (' ' :: s) = true
        then ({ dict := d, currentFile := some f, currentNewLine := c + 1 } : ParseState)
        else ⟨d, some f, c⟩) = ⟨d, some f, c + 1⟩
  rw [if_neg (by rw [h5]; exact Bool.false_ne_true), if_pos h4]

lemma ranges_step_del (st : ParseState) (s : Str) :
    changedLineRangesStep st ('-' :: s) = st := by
  have h1 : List.isPrefixOf "diff --git".toList ('-' :: s) = false :=
    isPrefixOf_head_ne (show ('d' : Char) ≠ '-' by decide) "iff --git".toList s
  have h2 : List.isPrefixOf "+++ b/".toList ('-' :: s) = false :=
    isPrefixOf_head_ne (show ('+' : Char) ≠ '-' by decide) "++ b/".toList s
  have h3 : List.isPrefixOf "@@ ".toList ('-' :: s) = false :=
    isPrefixOf_head_ne (show ('@' : Char) ≠ '-' by decide) "@ ".toList s
  have h4 : List.isPrefixOf "+".toList ('-' :: s) = false :=
    isPrefixOf_head_ne (show ('+' : Char) ≠ '-' by decide) [] s
  have h5 : List.isPrefixOf " ".toList ('-' :: s) = false :=
    isPrefixOf_head_ne (show (' ' : Char) ≠ '-' by decide) [] s
  obtain ⟨d, cf, c⟩ := st
  rw [changedLineRangesStep, if_neg (by rw [h1]; exact Bool.false_ne_true),
    if_neg (by rw [h2]; exact Bool.false_ne_true),
    if_neg (by rw [h3]; exact Bool.false_ne_true)]
  cases cf with
  | none => rfl
  | some f =>
    show (if List.isPrefixOf "+".toList ('-' :: s) = true
        then ({ dict := dictAddLine d f (c + 1), currentFile := some f,
                currentNewLine := c + 1 } : ParseState)
        else if List.isPrefixOf " ".toList ('-' :: s) = true
          then ({ dict := d, currentFile := some f, currentNewLine := c + 1 } : ParseState)
          else ⟨d, some f, c⟩) = ⟨d, some f, c⟩
    rw [if_neg (by rw [h4]; exact Bool.false_ne_true),
      if_neg (by rw [h5]; exact Bool.false_ne_true)]

/-!
### Folding the parsers over rendered diffs
-/

lemma mem_keysOf_dictSetEmpty (d : List (Str × Finset ℤ)) (k : Str) :
    k ∈ keysOf (dictSetEmpty d k) := by
  induction d with
  | nil => simp [dictSetEmpty, keysOf]
  | cons kv rest ih =>
    obtain ⟨k', v⟩ := kv
    rw [dictSetEmpty]
    by_cases h : k' = k
    · rw [if_pos h]
      exact List.mem_cons.mpr (Or.inl rfl)
    · rw [if_neg h]
      exact List.mem_cons.mpr (Or.inr ih)

lemma mem_keysOf_dictSetdefaultEmpty (d : List (Str × Finset ℤ)) (k : Str) :
    k ∈ keysOf (dictSetdefaultEmpty d k) := by
  induction d with
  | nil => simp [dictSetdefaultEmpty, keysOf]
  | cons kv rest ih =>
    obtain ⟨k', v⟩ := kv
    rw [dictSetdefaultEmpty]
    by_cases h : k' = k
    · rw [if_pos h]
      exact List.mem_cons.mpr (Or.inl h.symm)
    · rw [if_neg h]
      exact List.mem_cons.mpr (Or.inr ih)

lemma sets_step_dg' (d : List (Str × Finset ℤ)) (cf : Option Str) (c : ℤ)
    {line : Str} (h : List.isPrefixOf "diff --git".toList line = true) :
    diffLineSetsStep ⟨d, cf, c⟩ line = ⟨d, none, c⟩ :=
  sets_step_dg h

lemma sets_step_file' (d : List (Str × Finset ℤ)) (cf : Option Str) (c : ℤ) (p : Str) :
    diffLineSetsStep ⟨d, cf, c⟩ ("+++ b/".toList ++ p)
      = ⟨dictSetEmpty d p, some p, c⟩ :=
  sets_step_file ⟨d, cf, c⟩ p

lemma sets_step_header' (d : List (Str × Finset ℤ)) (cf : Option Str) (c : ℤ)
    {line : Str} {n : ℕ} (hpre : List.isPrefixOf "@@ ".toList line = true)
    (hnum : findPlusNum line = some n) :
    diffLineSetsStep ⟨d, cf, c⟩ line = ⟨d, cf, (n : ℤ) - 1⟩ :=
  sets_step_header hpre hnum

lemma foldl_content_sets (ls : List DiffLine) :
    ∀ (d : List (Str × Finset ℤ)) (f : Str) (c : ℤ), f ∈ keysOf d →
      (∀ l ∈ ls, lineOk l) →
      List.foldl diffLineSetsStep ⟨d, some f, c⟩ (ls.map renderDiffLine)
        = ⟨dictU d f (specReplay (c + 1) ls), some f, c + (newCount ls : ℤ)⟩ := by
  induction ls with
  | nil =>
    intro d f c hf _
    simp only [List.map_nil, List.foldl_nil, specReplay, newCount, Nat.cast_zero,
      add_zero, dictU_empty d f hf]
  | cons l ls ih =>
    intro d f c hf hok
    cases l with
    | add s =>
      rw [List.map_cons, List.foldl_cons, renderDiffLine,
        sets_step_add d f c s (hok (.add s) (List.mem_cons_self _ _)).2,
        dictAddLine_eq_dictU,
        ih (dictU d f {c + 1}) f (c + 1) (mem_keysOf_dictU d f _)
          (fun l hl => hok l (List.mem_cons_of_mem _ hl)),
        dictU_dictU, specReplay, newCount, ← Finset.insert_eq]
      refine congrArg (fun x => ParseState.mk _ (some f) x) ?_
      push_cast
      ring
    | ctx s =>
      rw [List.map_cons, List.foldl_cons, renderDiffLine,
        sets_step_ctx d f c s,
        dictAddLine_eq_dictU,
        ih (dictU d f {c + 1}) f (c + 1) (mem_keysOf_dictU d f _)
          (fun l hl => hok l (List.mem_cons_of_mem _ hl)),
        dictU_dictU, specReplay, newCount, ← Finset.insert_eq]
      refine congrArg (fun x => ParseState.mk _ (some f) x) ?_
      push_cast
      ring
    | del s =>
      rw [List.map_cons, List.foldl_cons, renderDiffLine, sets_step_del,
        ih d f c hf (fun l hl => hok l (List.mem_cons_of_mem _ hl)),
        specReplay, newCount]

lemma foldl_hunk_sets (h : Hunk) (hok : hunkOk h) (d : List (Str × Finset ℤ))
    (f : Str) (c : ℤ) (hf : f ∈ keysOf d) :
    List.foldl diffLineSetsStep ⟨d, some f, c⟩ (renderHunk h)
      = ⟨dictU d f (replayHunk h), some f,
         ((h.newStart : ℤ) - 1) + (newCount h.lines : ℤ)⟩ := by
  obtain ⟨hpre, hnum, _, hlines⟩ := hok
  rw [renderHunk, List.foldl_cons, sets_step_header' d (some f) c hpre hnum,
    foldl_content_sets h.lines d f ((h.newStart : ℤ) - 1) hf hlines]
  rw [replayHunk, show (h.newStart : ℤ) - 1 + 1 = (h.newStart : ℤ) by ring]

lemma foldl_union_init (l : List (Finset ℤ)) :
    ∀ a b : Finset ℤ, l.foldl (· ∪ ·) (a ∪ b) = a ∪ l.foldl (· ∪ ·) b := by
  induction l with
  | nil => intro a b; rfl
  | cons x l ih =>
    intro a b
    rw [List.foldl_cons, List.foldl_cons, Finset.union_assoc, ih]

lemma foldl_union_cons (x : Finset ℤ) (l : List (Finset ℤ)) :
    (x :: l).foldl (· ∪ ·) ∅ = x ∪ l.foldl (· ∪ ·) ∅ := by
  rw [List.foldl_cons, Finset.empty_union]
  calc l.foldl (· ∪ ·) x = l.foldl (· ∪ ·) (x ∪ ∅) := by rw [Finset.union_empty]
    _ = x ∪ l.foldl (· ∪ ·) ∅ := foldl_union_init l x ∅

lemma foldl_hunks_sets (hs : List Hunk) :
    ∀ (d : List (Str × Finset ℤ)) (f : Str) (c : ℤ), (∀ h ∈ hs, hunkOk h) →
      f ∈ keysOf d → ∃ c',
      List.foldl diffLineSetsStep ⟨d, some f, c⟩ ((hs.map renderHunk).flatten)
        = ⟨dictU d f ((hs.map replayHunk).foldl (· ∪ ·) ∅), some f, c'⟩ := by
  induction hs with
  | nil =>
    intro d f c _ hf
    exact ⟨c, by simp [dictU_empty d f hf]⟩
  | cons h hs ih =>
    intro d f c hok hf
    rw [List.map_cons, List.flatten_cons, List.foldl_append,
      foldl_hunk_sets h (hok h (List.mem_cons_self _ _)) d f c hf]
    obtain ⟨c', hc'⟩ := ih (dictU d f (replayHunk h)) f
      (((h.newStart : ℤ) - 1) + (newCount h.lines : ℤ))
      (fun h' hh => hok h' (List.mem_cons_of_mem _ hh)) (mem_keysOf_dictU _ _ _)
    rw [hc', dictU_dictU, List.map_cons, foldl_union_cons]
    exact ⟨c', rfl⟩

lemma foldl_filepatch_sets (fp : FilePatch) (hfp : filePatchOk fp)
    (d : List (Str × Finset ℤ)) (cf : Option Str) (c : ℤ) : ∃ c',
    List.foldl diffLineSetsStep ⟨d, cf, c⟩ (renderFilePatch fp)
      = ⟨dictU (dictSetEmpty d fp.path) fp.path (replayFilePatch fp),
         some fp.path, c'⟩ := by
  obtain ⟨c', hc'⟩ := foldl_hunks_sets fp.hunks (dictSetEmpty d fp.path) fp.path c
    hfp.2 (mem_keysOf_dictSetEmpty d fp.path)
  refine ⟨c', ?_⟩
  rw [renderFilePatch, List.foldl_cons,
    sets_step_dg' d cf c (isPrefixOf_append_self "diff --git".toList _),
    List.foldl_cons, sets_step_del, List.foldl_cons,
    sets_step_file' d none c fp.path, hc', replayFilePatch]

lemma foldl_files_sets (fps : List FilePatch) :
    ∀ (d : List (Str × Finset ℤ)) (cf : Option Str) (c : ℤ),
      (∀ fp ∈ fps, filePatchOk fp) →
      (fps.map FilePatch.path).Nodup →
      (∀ fp ∈ fps, fp.path ∉ keysOf d) → ∃ cf' c',
      List.foldl diffLineSetsStep ⟨d, cf, c⟩ ((fps.map renderFilePatch).flatten)
        = ⟨d ++ fps.map (fun fp => (fp.path, replayFilePatch fp)), cf', c'⟩ := by
  induction fps with
  | nil =>
    intro d cf c _ _ _
    exact ⟨cf, c, by simp⟩
  | cons fp fps ih =>
    intro d cf c hok hnod hfresh
    rw [List.map_cons, List.flatten_cons, List.foldl_append]
    obtain ⟨c1, hc1⟩ := foldl_filepatch_sets fp (hok fp (List.mem_cons_self _ _)) d cf c
    rw [hc1, dictSetEmpty_of_not_mem d fp.path (hfresh fp (List.mem_cons_self _ _)),
      dictU_append_of_not_mem d fp.path ∅ (replayFilePatch fp)
        (hfresh fp (List.mem_cons_self _ _)),
      Finset.empty_union]
    obtain ⟨cf', c', hc'⟩ := ih (d ++ [(fp.path, replayFilePatch fp)]) (some fp.path) c1
      (fun fp' h => hok fp' (List.mem_cons_of_mem _ h))
      ((List.nodup_cons.mp hnod).2)
      (by
        intro fp' h hmem
        rw [keysOf_append] at hmem
        rcases List.mem_append.mp hmem with hm | hm
        · exact hfresh fp' (List.mem_cons_of_mem _ h) hm
        · have hpe : fp'.path = fp.path := by
            simpa [keysOf] using hm
          exact (List.nodup_cons.mp hnod).1
            (hpe ▸ List.mem_map.mpr ⟨fp', h, rfl⟩))
    rw [hc']
    refine ⟨cf', c', ?_⟩
    rw [List.map_cons, List.append_assoc, List.singleton_append]

/-!
### Rendered diffs split back into their lines
-/

lemma no_newline_renderFilePatch (fp : FilePatch) (hfp : filePatchOk fp) :
    ∀ l ∈ renderFilePatch fp, '\n' ∉ l := by
  obtain ⟨hpath, hhunks⟩ := hfp
  intro l hl
  have hA : ('\n' : Char) ∉ "diff --git".toList := by decide
  have hB : ('\n' : Char) ∉ " a/".toList := by decide
  have hC : ('\n' : Char) ∉ " b/".toList := by decide
  have hD : ('\n' : Char) ∉ "-- a/".toList := by decide
  have hE : ('\n' : Char) ∉ "+++ b/".toList := by decide
  rw [renderFilePatch] at hl
  rcases List.mem_cons.mp hl with rfl | hl
  · intro hmem
    simp only [List.mem_append] at hmem
    tauto
  rcases List.mem_cons.mp hl with rfl | hl
  · intro hmem
    rcases List.mem_cons.mp hmem with he | hmem
    · exact absurd he (by decide)
    simp only [List.mem_append] at hmem
    tauto
  rcases List.mem_cons.mp hl with rfl | hl
  · intro hmem
    simp only [List.mem_append] at hmem
    tauto
  obtain ⟨ll, hll, hl2⟩ := List.mem_flatten.mp hl
  obtain ⟨hk, hhk, rfl⟩ := List.mem_map.mp hll
  obtain ⟨hpre, hnum, hhdr, hlines⟩ := hhunks hk hhk
  rcases List.mem_cons.mp hl2 with rfl | hl2
  · exact hhdr
  obtain ⟨dl, hdl, rfl⟩ := List.mem_map.mp hl2
  cases dl with
  | add s =>
    intro hmem
    rcases List.mem_cons.mp hmem with he | hmem
    · exact absurd he (by decide)
    · exact (hlines (.add s) hdl).1 hmem
  | ctx s =>
    intro hmem
    rcases List.mem_cons.mp hmem with he | hmem
    · exact absurd he (by decide)
    · exact hlines (.ctx s) hdl hmem
  | del s =>
    intro hmem
    rcases List.mem_cons.mp hmem with he | hmem
    · exact absurd he (by decide)
    · exact hlines (.del s) hdl hmem

lemma renderDiffLines_no_newline (fps : List FilePatch) (h : diffOk fps) :
    ∀ l ∈ renderDiffLines fps, ('\n' : Char) ∉ l := by
  intro l hl
  rw [renderDiffLines] at hl
  obtain ⟨ll, hll, hl2⟩ := List.mem_flatten.mp hl
  obtain ⟨fp, hfp, rfl⟩ := List.mem_map.mp hll
  exact no_newline_renderFilePatch fp (h.2 fp hfp) l hl2

lemma renderDiffLines_ne_nil (fp : FilePatch) (fps : List FilePatch) :
    renderDiffLines (fp :: fps) ≠ [] := by
  rw [renderDiffLines, List.map_cons, List.flatten_cons, renderFilePatch]
  simp

lemma linesFor_map (g : FilePatch → Finset ℤ) (fps : List FilePatch) :
    ∀ (_ : (fps.map FilePatch.path).Nodup) (fp : FilePatch), fp ∈ fps →
      linesFor (fps.map (fun fp' => (fp'.path, g fp'))) fp.path = g fp := by
  induction fps with
  | nil => intro _ fp hfp; cases hfp
  | cons fp' fps ih =>
    intro hnod fp hfp
    rw [List.map_cons, linesFor]
    rcases List.mem_cons.mp hfp with rfl | hmem
    · rw [List.find?_cons_of_pos _ (by simp)]
    · by_cases he : fp'.path = fp.path
      · exact absurd (he ▸ List.mem_map.mpr ⟨fp, hmem, rfl⟩)
          (List.nodup_cons.mp hnod).1
      · rw [List.find?_cons_of_neg _ (by simp [he])]
        exact ih (List.nodup_cons.mp hnod).2 fp hmem

/-- Characterization of `get_diff_line_sets` on well-formed rendered diffs:
the resulting dict binds each file path to exactly the lines reconstructed
from that file's hunk headers. -/
lemma get_diff_line_sets_renders (fps : List FilePatch) (h : diffOk fps) :
    get_diff_line_sets (renderDiff fps)
      = fps.map (fun fp => (fp.path, replayFilePatch fp)) := by
  cases fps with
  | nil => rfl
  | cons fp fps' =>
    rw [get_diff_line_sets, renderDiff,
      List.splitOn_intercalate (renderDiffLines (fp :: fps')) '\n'
        (renderDiffLines_no_newline _ h) (renderDiffLines_ne_nil fp fps'),
      renderDiffLines]
    obtain ⟨cf', c', hfold⟩ := foldl_files_sets (fp :: fps') [] none 0 h.2 h.1
      (fun _ _ hm => by simp [keysOf] at hm)
    rw [hfold]
    simp

/-- The file patch refuting C6 as stated: its middle added line has content
`++ b/f`, so git renders it as the body line `+++ b/f` — a diff git itself
produces when a file gains such a line. -/
def fpCollide : FilePatch :=
  ⟨"f".toList,
   [⟨"@@ -1,1 +1,3 @@".toList, 1,
     [.add "x".toList, .add "++ b/f".toList, .add "y".toList]⟩]⟩

/-- **C6, counterexample.** On the rendered diff of `fpCollide`, the parser
takes the rendered added line `+++ b/f` for a new-file header: it resets the
file's set and misses line 1, recording `{2}`, while replaying the hunk
header's `+1` start over the three added lines gives `{1, 2, 3}`.  The claim
as stated — quantified over every unified-diff text — is therefore false of
the code. -/
theorem get_diff_line_sets_counterexample :
    linesFor (get_diff_line_sets (renderDiff [fpCollide])) fpCollide.path
        = ({2} : Finset ℤ)
    ∧ replayFilePatch fpCollide = ({1, 2, 3} : Finset ℤ)
    ∧ linesFor (get_diff_line_sets (renderDiff [fpCollide])) fpCollide.path
        ≠ replayFilePatch fpCollide := by
  refine ⟨by decide, by decide, by decide⟩

/-- **C6 (amended).** For every well-formed unified diff *in which no added
line's content begins with `++ b/`* (such a line renders as `+++ b/…` and is
taken for a file header — see the counterexample), the commentable-line set
that `get_diff_line_sets` records for a file is exactly the set reconstructed
from that file's hunk headers: starting the counter at the header's `+N`
value and advancing it for each added or context line (removed lines do not
advance it) reproduces the recorded set — no more and no fewer lines. -/
theorem get_diff_line_sets_spec (fps : List FilePatch) (h : diffOk fps) :
    ∀ fp ∈ fps,
      linesFor (get_diff_line_sets (renderDiff fps)) fp.path = replayFilePatch fp := by
  intro fp hfp
  rw [get_diff_line_sets_renders fps h]
  exact linesFor_map replayFilePatch fps h.1 fp hfp

/-- The one-hunk file patch used by the C6 witness. -/
def fpWitness : FilePatch :=
  ⟨"src/a.py".toList,
   [⟨"@@ -10,3 +10,4 @@".toList, 10,
     [.ctx "existing line".toList, .add "new line".toList,
      .ctx "another line".toList]⟩]⟩

/-- Witness for C6: the theorem applied to a concrete rendered diff, whose
recorded and reconstructed sets are both `{10, 11, 12}`. -/
theorem get_diff_line_sets_spec_witness :
    linesFor (get_diff_line_sets (renderDiff [fpWitness])) fpWitness.path
      = replayFilePatch fpWitness
    ∧ replayFilePatch fpWitness = {10, 11, 12} :=
  ⟨get_diff_line_sets_spec [fpWitness] (by decide) fpWitness
    (List.mem_cons_self fpWitness []),
   by decide⟩

/-!
### The same development for `get_changed_line_ranges`
-/

lemma ranges_step_dg' (d : List (Str × Finset ℤ)) (cf : Option Str) (c : ℤ)
    {line : Str} (h : List.isPrefixOf "diff --git".toList line = true) :
    changedLineRangesStep ⟨d, cf, c⟩ line = ⟨d, none, c⟩ :=
  ranges_step_dg h

lemma ranges_step_file' (d : List (Str × Finset ℤ)) (cf : Option Str) (c : ℤ) (p : Str) :
    changedLineRangesStep ⟨d, cf, c⟩ ("+++ b/".toList ++ p)
      = ⟨dictSetdefaultEmpty d p, some p, c⟩ :=
  ranges_step_file ⟨d, cf, c⟩ p

lemma ranges_step_header' (d : List (Str × Finset ℤ)) (cf : Option Str) (c : ℤ)
    {line : Str} {n : ℕ} (hpre : List.isPrefixOf "@@ ".toList line = true)
    (hnum : findPlusNum line = some n) :
    changedLineRangesStep ⟨d, cf, c⟩ line = ⟨d, cf, (n : ℤ) - 1⟩ :=
  ranges_step_header hpre hnum

lemma foldl_content_ranges (ls : List DiffLine) :
    ∀ (d : List (Str × Finset ℤ)) (f : Str) (c : ℤ), f ∈ keysOf d →
      (∀ l ∈ ls, lineOk l) →
      List.foldl changedLineRangesStep ⟨d, some f, c⟩ (ls.map renderDiffLine)
        = ⟨dictU d f (specReplayAdded (c + 1) ls), some f, c + (newCount ls : ℤ)⟩ := by
  induction ls with
  | nil =>
    intro d f c hf _
    simp only [List.map_nil, List.foldl_nil, specReplayAdded, newCount, Nat.cast_zero,
      add_zero, dictU_empty d f hf]
  | cons l ls ih =>
    intro d f c hf hok
    cases l with
    | add s =>
      rw [List.map_cons, List.foldl_cons, renderDiffLine,
        ranges_step_add d f c s (hok (.add s) (List.mem_cons_self _ _)).2,
        dictAddLine_eq_dictU,
        ih (dictU d f {c + 1}) f (c + 1) (mem_keysOf_dictU d f _)
          (fun l hl => hok l (List.mem_cons_of_mem _ hl)),
        dictU_dictU, specReplayAdded, newCount, ← Finset.insert_eq]
      refine congrArg (fun x => ParseState.mk _ (some f) x) ?_
      push_cast
      ring
    | ctx s =>
      rw [List.map_cons, List.foldl_cons, renderDiffLine,
        ranges_step_ctx d f c s,
        ih d f (c + 1) hf (fun l hl => hok l (List.mem_cons_of_mem _ hl)),
        specReplayAdded, newCount]
      refine congrArg (fun x => ParseState.mk _ (some f) x) ?_
      push_cast
      ring
    | del s =>
      rw [List.map_cons, List.foldl_cons, renderDiffLine, ranges_step_del,
        ih d f c hf (fun l hl => hok l (List.mem_cons_of_mem _ hl)),
        specReplayAdded, newCount]

lemma foldl_hunk_ranges (h : Hunk) (hok : hunkOk h) (d : List (Str × Finset ℤ))
    (f : Str) (c : ℤ) (hf : f ∈ keysOf d) :
    List.foldl changedLineRangesStep ⟨d, some f, c⟩ (renderHunk h)
      = ⟨dictU d f (replayHunkAdded h), some f,
         ((h.newStart : ℤ) - 1) + (newCount h.lines : ℤ)⟩ := by
  obtain ⟨hpre, hnum, _, hlines⟩ := hok
  rw [renderHunk, List.foldl_cons, ranges_step_header' d (some f) c hpre hnum,
    foldl_content_ranges h.lines d f ((h.newStart : ℤ) - 1) hf hlines]
  rw [replayHunkAdded, show (h.newStart : ℤ) - 1 + 1 = (h.newStart : ℤ) by ring]

lemma foldl_hunks_ranges (hs : List Hunk) :
    ∀ (d : List (Str × Finset ℤ)) (f : Str) (c : ℤ), (∀ h ∈ hs, hunkOk h) →
      f ∈ keysOf d → ∃ c',
      List.foldl changedLineRangesStep ⟨d, some f, c⟩ ((hs.map renderHunk).flatten)
        = ⟨dictU d f ((hs.map replayHunkAdded).foldl (· ∪ ·) ∅), some f, c'⟩ := by
  induction hs with
  | nil =>
    intro d f c _ hf
    exact ⟨c, by simp [dictU_empty d f hf]⟩
  | cons h hs ih =>
    intro d f c hok hf
    rw [List.map_cons, List.flatten_cons, List.foldl_append,
      foldl_hunk_ranges h (hok h (List.mem_cons_self _ _)) d f c hf]
    obtain ⟨c', hc'⟩ := ih (dictU d f (replayHunkAdded h)) f
      (((h.newStart : ℤ) - 1) + (newCount h.lines : ℤ))
      (fun h' hh => hok h' (List.mem_cons_of_mem _ hh)) (mem_keysOf_dictU _ _ _)
    rw [hc', dictU_dictU, List.map_cons, foldl_union_cons]
    exact ⟨c', rfl⟩

lemma foldl_filepatch_ranges (fp : FilePatch) (hfp : filePatchOk fp)
    (d : List (Str × Finset ℤ)) (cf : Option Str) (c : ℤ) : ∃ c',
    List.foldl changedLineRangesStep ⟨d, cf, c⟩ (renderFilePatch fp)
      = ⟨dictU (dictSetdefaultEmpty d fp.path) fp.path (replayFilePatchAdded fp),
         some fp.path, c'⟩ := by
  obtain ⟨c', hc'⟩ := foldl_hunks_ranges fp.hunks (dictSetdefaultEmpty d fp.path)
    fp.path c hfp.2 (mem_keysOf_dictSetdefaultEmpty d fp.path)
  refine ⟨c', ?_⟩
  rw [renderFilePatch, List.foldl_cons,
    ranges_step_dg' d cf c (isPrefixOf_append_self "diff --git".toList _),
    List.foldl_cons, ranges_step_del, List.foldl_cons,
    ranges_step_file' d none c fp.path, hc', replayFilePatchAdded]

lemma foldl_files_ranges (fps : List FilePatch) :
    ∀ (d : List (Str × Finset ℤ)) (cf : Option Str) (c : ℤ),
      (∀ fp ∈ fps, filePatchOk fp) →
      (fps.map FilePatch.path).Nodup →
      (∀ fp ∈ fps, fp.path ∉ keysOf d) → ∃ cf' c',
      List.foldl changedLineRangesStep ⟨d, cf, c⟩ ((fps.map renderFilePatch).flatten)
        = ⟨d ++ fps.map (fun fp => (fp.path, replayFilePatchAdded fp)), cf', c'⟩ := by
  induction fps with
  | nil =>
    intro d cf c _ _ _
    exact ⟨cf, c, by simp⟩
  | cons fp fps ih =>
    intro d cf c hok hnod hfresh
    rw [List.map_cons, List.flatten_cons, List.foldl_append]
    obtain ⟨c1, hc1⟩ := foldl_filepatch_ranges fp (hok fp (List.mem_cons_self _ _)) d cf c
    rw [hc1, dictSetdefaultEmpty_of_not_mem d fp.path (hfresh fp (List.mem_cons_self _ _)),
      dictU_append_of_not_mem d fp.path ∅ (replayFilePatchAdded fp)
        (hfresh fp (List.mem_cons_self _ _)),
      Finset.empty_union]
    obtain ⟨cf', c', hc'⟩ := ih (d ++ [(fp.path, replayFilePatchAdded fp)]) (some fp.path) c1
      (fun fp' h => hok fp' (List.mem_cons_of_mem _ h))
      ((List.nodup_cons.mp hnod).2)
      (by
        intro fp' h hmem
        rw [keysOf_append] at hmem
        rcases List.mem_append.mp hmem with hm | hm
        · exact hfresh fp' (List.mem_cons_of_mem _ h) hm
        · have hpe : fp'.path = fp.path := by
            simpa [keysOf] using hm
          exact (List.nodup_cons.mp hnod).1
            (hpe ▸ List.mem_map.mpr ⟨fp', h, rfl⟩))
    rw [hc']
    refine ⟨cf', c', ?_⟩
    rw [List.map_cons, List.append_assoc, List.singleton_append]

/-- Characterization of `get_changed_line_ranges` on well-formed rendered
diffs: each file path is bound to exactly its reconstructed added lines. -/
lemma get_changed_line_ranges_renders (fps : List FilePatch) (h : diffOk fps) :
    get_changed_line_ranges (renderDiff fps)
      = fps.map (fun fp => (fp.path, replayFilePatchAdded fp)) := by
  cases fps with
  | nil => rfl
  | cons fp fps' =>
    rw [get_changed_line_ranges, renderDiff,
      List.splitOn_intercalate (renderDiffLines (fp :: fps')) '\n'
        (renderDiffLines_no_newline _ h) (renderDiffLines_ne_nil fp fps'),
      renderDiffLines]
    obtain ⟨cf', c', hfold⟩ := foldl_files_ranges (fp :: fps') [] none 0 h.2 h.1
      (fun _ _ hm => by simp [keysOf] at hm)
    rw [hfold]
    simp

/-!
### Added lines are a subset of commentable lines
-/

lemma specReplayAdded_mem (ls : List DiffLine) :
    ∀ (c : ℤ) (n : ℤ), n ∈ specReplayAdded c ls → n ∈ specReplay c ls := by
  induction ls with
  | nil => intro c n h; simp [specReplayAdded] at h
  | cons l ls ih =>
    intro c n h
    cases l with
    | add s =>
      rw [specReplayAdded] at h
      rw [specReplay]
      rcases Finset.mem_insert.mp h with rfl | h
      · exact Finset.mem_insert_self _ _
      · exact Finset.mem_insert_of_mem (ih (c + 1) n h)
    | ctx s =>
      rw [specReplayAdded] at h
      rw [specReplay]
      exact Finset.mem_insert_of_mem (ih (c + 1) n h)
    | del s =>
      rw [specReplayAdded] at h
      rw [specReplay]
      exact ih c n h

lemma mem_foldl_union (l : List (Finset ℤ)) (n : ℤ) :
    n ∈ l.foldl (· ∪ ·) ∅ ↔ ∃ s ∈ l, n ∈ s := by
  induction l with
  | nil => simp
  | cons x l ih =>
    rw [foldl_union_cons, Finset.mem_union, ih]
    simp

lemma replayFilePatchAdded_mem (fp : FilePatch) (n : ℤ)
    (h : n ∈ replayFilePatchAdded fp) : n ∈ replayFilePatch fp := by
  rw [replayFilePatchAdded, mem_foldl_union] at h
  obtain ⟨s, hs, hn⟩ := h
  obtain ⟨hk, hhk, rfl⟩ := List.mem_map.mp hs
  rw [replayFilePatch, mem_foldl_union]
  exact ⟨replayHunk hk, List.mem_map.mpr ⟨hk, hhk, rfl⟩,
    specReplayAdded_mem hk.lines (hk.newStart : ℤ) n hn⟩

/-- The file patch refuting C10 as stated (same collision as C6's): the added
line `++ b/f` renders as `+++ b/f`; `get_changed_line_ranges` keeps line 1
across that spurious header (`setdefault` preserves the entry) while
`get_diff_line_sets` wipes it (`line_sets[f] = set()` resets). -/
def fpCollideRanges : FilePatch :=
  ⟨"f".toList,
   [⟨"@@ -1,1 +1,3 @@".toList, 1,
     [.add "x".toList, .add "++ b/f".toList, .add "y".toList]⟩]⟩

/-- **C10, counterexample.** On the rendered diff of `fpCollideRanges` the
changed-line set is `{1, 2}` but the commentable set is `{2}`: added line 1
is not commentable, so the unrestricted subset claim is false of the code. -/
theorem changed_ranges_subset_counterexample :
    linesFor (get_changed_line_ranges (renderDiff [fpCollideRanges]))
        fpCollideRanges.path = ({1, 2} : Finset ℤ)
    ∧ linesFor (get_diff_line_sets (renderDiff [fpCollideRanges]))
        fpCollideRanges.path = ({2} : Finset ℤ)
    ∧ (1 : ℤ) ∈ linesFor (get_changed_line_ranges (renderDiff [fpCollideRanges]))
        fpCollideRanges.path
    ∧ (1 : ℤ) ∉ linesFor (get_diff_line_sets (renderDiff [fpCollideRanges]))
        fpCollideRanges.path := by
  refine ⟨by decide, by decide, by decide, by decide⟩

/-- **C10 (amended).** For every well-formed unified diff *in which no added
line's content begins with `++ b/`* (see the counterexample) and every file in
it, the set of added-line numbers produced by `get_changed_line_ranges` is a
subset of the commentable-line set produced by `get_diff_line_sets` for the
same file. -/
theorem changed_ranges_subset_line_sets (fps : List FilePatch) (h : diffOk fps) :
    ∀ fp ∈ fps, ∀ n : ℤ,
      n ∈ linesFor (get_changed_line_ranges (renderDiff fps)) fp.path →
      n ∈ linesFor (get_diff_line_sets (renderDiff fps)) fp.path := by
  intro fp hfp n hn
  rw [get_changed_line_ranges_renders fps h,
    linesFor_map replayFilePatchAdded fps h.1 fp hfp] at hn
  rw [get_diff_line_sets_renders fps h, linesFor_map replayFilePatch fps h.1 fp hfp]
  exact replayFilePatchAdded_mem fp n hn

/-- The two-hunk file patch used by the C10 witness. -/
def fpWitnessRanges : FilePatch :=
  ⟨"src/b.py".toList,
   [⟨"@@ -10,3 +10,4 @@".toList, 10,
     [.ctx "ctx".toList, .add "line".toList, .del "old".toList]⟩,
    ⟨"@@ -50,3 +51,4 @@".toList, 51,
     [.add "another".toList]⟩]⟩

/-- Witness for C10: the theorem applied to a concrete rendered diff — added
line 11 of the first hunk is also commentable. -/
theorem changed_ranges_subset_line_sets_witness :
    (11 : ℤ) ∈ linesFor (get_changed_line_ranges (renderDiff [fpWitnessRanges]))
      fpWitnessRanges.path
    ∧ (11 : ℤ) ∈ linesFor (get_diff_line_sets (renderDiff [fpWitnessRanges]))
      fpWitnessRanges.path :=
  ⟨by decide,
   changed_ranges_subset_line_sets [fpWitnessRanges] (by decide) fpWitnessRanges
     (List.mem_cons_self _ _) 11 (by decide)⟩

end ReviewAgent
